import Mathlib

/-!
Shallow embedding of `prospect/plotting/sfh.py` (repository `bd-j/bsfh`).

Python/numpy floats are modelled as real numbers, numpy arrays as lists of
reals, and Python exceptions as `Except` values.  Vectorized numpy
operations become `List.map` / `List.zipWith` over the same data.  The
external collaborators that are not part of this repository's source tree
(`scipy.special.gamma`/`gammainc`, numpy's `interp`/`percentile`, and the
mass transform `logsfr_ratios_to_masses` from `prospect.models.transforms`)
are modelled as explained at each definition.
-/

noncomputable section

open Real

/-- Python exceptions that the module can raise, as relevant here. -/
inductive PyErr where
  | typeError
  | valueError
  | notImplemented
deriving DecidableEq

/-- A numpy value that is either a 0-d/scalar value or a 1-d array.
This distinction matters because boolean-mask item assignment
(`psi[tt < 0] = 0`) is a `TypeError` on a numpy scalar. -/
inductive NpVal where
  | scalar (v : ℝ)
  | arr (l : List ℝ)
deriving Inhabited

/-- Elementwise application of a scalar function, mirroring numpy ufunc
broadcasting over either a scalar or an array. -/
def npMap (f : ℝ → ℝ) : NpVal → NpVal
  | .scalar v => .scalar (f v)
  | .arr l => .arr (l.map f)

/-- The numpy statement `psi[tt < 0] = 0`: wherever the companion value `tt`
is negative, overwrite the entry of `psi` with `0`.  On a numpy scalar this
item assignment raises `TypeError` (`numpy.float64` does not support item
assignment); on arrays it acts elementwise. -/
def maskAssignZero : NpVal → NpVal → Except PyErr NpVal
  | .arr tt, .arr psi => .ok (.arr (List.zipWith (fun s p => if s < 0 then 0 else p) tt psi))
  | _, _ => .error .typeError

/-- Modelled external special function: `scipy.special.gamma` restricted to
the positive integer orders at which this module calls it
(`power + 1` and `power + 2` for integer `power`), where `Γ(a) = (a-1)!`. -/
def scipyGamma (a : ℕ) : ℝ := (Nat.factorial (a - 1) : ℝ)

/-- Modelled external special function: `scipy.special.gammainc`, the
regularized lower incomplete gamma function `P(a, x) = γ(a, x)/Γ(a)`,
restricted to the positive integer orders at which this module calls it,
where it has the closed form `P(a, x) = 1 - e^(-x) · Σ_{k < a} x^k / k!`. -/
def gammainc (a : ℕ) (x : ℝ) : ℝ :=
  1 - Real.exp (-x) * ∑ k ∈ Finset.range a, x ^ k / (Nat.factorial k : ℝ)

/-- `np.clip(v, lo, hi)`. -/
def clip (v lo hi : ℝ) : ℝ := min (max v lo) hi

/-- Cumulative sums starting from an accumulator (helper for `np.cumsum`). -/
def cumsumFrom (acc : ℝ) : List ℝ → List ℝ
  | [] => []
  | x :: t => (acc + x) :: cumsumFrom (acc + x) t

/-- `np.cumsum` along the last axis of a 1-d list. -/
def cumsum (l : List ℝ) : List ℝ := cumsumFrom 0 l

/-- `np.trapz(y, x)`: composite trapezoidal rule over sample points. -/
def trapz : List ℝ → List ℝ → ℝ
  | y0 :: y1 :: ys, x0 :: x1 :: xs =>
      (x1 - x0) * (y0 + y1) / 2 + trapz (y1 :: ys) (x1 :: xs)
  | _, _ => 0

/-- `np.linspace(0, b, n)`: `n` evenly spaced points from `0` to `b`
inclusive. -/
def linspace0 (b : ℝ) (n : ℕ) : List ℝ :=
  (List.range n).map (fun i : ℕ => b * (i : ℝ) / ((n : ℝ) - 1))

/-- `np.max` over a 1-d array; raises `ValueError` on an empty array. -/
def listMax : List ℝ → Except PyErr ℝ
  | [] => .error .valueError
  | x :: t => .ok (t.foldl max x)

/-- The signature of the external mass transform
`logsfr_ratios_to_masses(logmass, logsfr_ratios, agebins) -> masses`.
Modelled from the spec: the function itself lives in
`prospect.models.transforms`, outside the given source tree, so the module
is embedded as parametric over any function of this signature; the
contract the spec assigns to it is `massTransformContract` below. -/
def MassTransform : Type :=
  ℝ → List ℝ → List (ℝ × ℝ) → List ℝ

/-- Linear-time widths of the age bins: `10**agebins[:,1] - 10**agebins[:,0]`
(years). -/
def binWidths (agebins : List (ℝ × ℝ)) : List ℝ :=
  agebins.map (fun b => (10 : ℝ) ^ b.2 - (10 : ℝ) ^ b.1)

/-- Modelled from the spec: the documented contract of the external mass
transform (spec sections 3 and 6): the returned per-bin masses have one
entry per bin, sum to `10^logmass`, and realize the given log-SFR ratios:
`SFR_i = 10^(r_i) · SFR_(i+1)` where `SFR_i = m_i / dt_i`. -/
def massTransformContract (mt : MassTransform) (logmass : ℝ) (logsfr_ratios : List ℝ)
    (agebins : List (ℝ × ℝ)) : Prop :=
  (mt logmass logsfr_ratios agebins).length = agebins.length ∧
  (mt logmass logsfr_ratios agebins).sum = (10 : ℝ) ^ logmass ∧
  ∀ i, i + 1 < agebins.length →
    (mt logmass logsfr_ratios agebins).getD i 0 / (binWidths agebins).getD i 1 =
      (10 : ℝ) ^ (logsfr_ratios.getD i 0) *
        ((mt logmass logsfr_ratios agebins).getD (i + 1) 0 /
          (binWidths agebins).getD (i + 1) 1)

/-- `parametric_sfr(tau, tage, power, mass, logmass, times)` (sfh.py:67-104).
If `mass` is absent but `logmass` is given, `mass = 10**logmass`; if both
are absent, the arithmetic on `None` raises `TypeError`.  With `times`
given, `tt = tage - times` is an array; with `times` absent, `tt = tage`
is a scalar.  `psi` is the Gamma-SFH formula evaluated on `tt`, then
`psi[tt < 0] = 0` is applied (a `TypeError` when `psi` is a scalar, i.e.
whenever `times` is omitted and the parameters are scalars), and the
result is scaled by `1e-9`. -/
def parametric_sfr (tau tage : ℝ) (power : ℕ) (mass logmass : Option ℝ)
    (times : Option (List ℝ)) : Except PyErr NpVal := do
  let mv : ℝ ←
    match mass, logmass with
    | none, none => .error .typeError
    | none, some lm => .ok ((10 : ℝ) ^ lm)
    | some m, _ => .ok m
  let tt : NpVal :=
    match times with
    | none => .scalar tage
    | some ts => .arr (ts.map (fun t => tage - t))
  let psi := npMap (fun s =>
    mv * (s / tau) ^ power * Real.exp (-s / tau) /
      (tau * scipyGamma (power + 1) * gammainc (power + 1) (tage / tau))) tt
  let masked ← maskAssignZero tt psi
  return npMap (fun v => v * 1e-9) masked

/-- `parametric_mwa_numerical(tau, tage, power, n)` (sfh.py:107-116):
trapezoidal quotient of the first-moment and mass integrands on an
`n`-point grid. -/
def parametric_mwa_numerical (tau tage : ℝ) (power : ℕ) (n : ℕ) : ℝ :=
  let t := linspace0 tage n
  let tavg := trapz (t.map (fun s => s ^ (power + 1) * Real.exp (-s / tau))) t /
      trapz (t.map (fun s => s ^ power * Real.exp (-s / tau))) t
  tage - tavg

/-- `parametric_mwa(tau, tage, power)` (sfh.py:119-127): closed-form
mass-weighted age via incomplete gamma ratios. -/
def parametric_mwa (tau tage : ℝ) (power : ℕ) : ℝ :=
  let tt := tage / tau
  let mwt := gammainc (power + 2) tt * scipyGamma (power + 2) / gammainc (power + 1) tt * tau
  tage - mwt

/-- `parametric_cmf(tau, tage, times)` (sfh.py:130-141): the body starts
with `raise(NotImplementedError)`, so every call raises; the code after
the raise is unreachable. -/
def parametric_cmf (_tau _tage : ℝ) (_times : Option (List ℝ)) : Except PyErr (List ℝ) :=
  .error .notImplemented

/-- `ratios_to_sfrs(logmass, logsfr_ratios, agebins)` (sfh.py:144-152):
per-bin masses from the external transform divided by linear bin widths. -/
def ratios_to_sfrs (mt : MassTransform) (logmass : ℝ) (logsfr_ratios : List ℝ)
    (agebins : List (ℝ × ℝ)) : List ℝ :=
  List.zipWith (fun m dt => m / dt) (mt logmass logsfr_ratios agebins) (binWidths agebins)

/-- Bin edges converted from log10(years) to Gyr: `10**(agebins - 9)`. -/
def agesGyr (agebins : List (ℝ × ℝ)) : List (ℝ × ℝ) :=
  agebins.map (fun b => ((10 : ℝ) ^ (b.1 - 9), (10 : ℝ) ^ (b.2 - 9)))

/-- `nonpar_recent_sfr(logmass, logsfr_ratios, agebins, sfr_period)`
(sfh.py:155-165), vectorized over ensemble members: fractional bin
coverage `ft = clip((sfr_period - t_lo)/(t_hi - t_lo), 0, 1)` weights the
per-bin masses; the window mass is divided by `sfr_period · 1e9`. -/
def nonpar_recent_sfr (mt : MassTransform) (logmass : List ℝ)
    (logsfr_ratios : List (List ℝ)) (agebins : List (ℝ × ℝ)) (sfr_period : ℝ) : List ℝ :=
  let masses := (logmass.zip logsfr_ratios).map (fun p => mt p.1 p.2 agebins)
  let ft := (agesGyr agebins).map (fun a => clip ((sfr_period - a.1) / (a.2 - a.1)) 0 1)
  masses.map (fun m => (List.zipWith (fun f x => f * x) ft m).sum / (sfr_period * 1e9))

/-- One row of `sfh_to_cmf`: multiply the SFRs by the bin widths, reverse
(oldest bin first), cumulative-sum, normalize by the last (total) value,
prepend a zero, and reverse back. -/
def cmfRow (dt : List ℝ) (sfrs : List ℝ) : List ℝ :=
  let masses := (List.zipWith (fun s w => s * w) sfrs dt).reverse
  let cm := cumsum masses
  let nrm := cm.map (fun v => v / cm.getLastD 0)
  (0 :: nrm).reverse

/-- `sfh_to_cmf(sfrs, agebins)` (sfh.py:180-191).  Returns the age grid
(lower bin edges in Gyr plus the oldest bin's upper edge, `N+1` points for
`N` bins) and the per-member CMF rows.  The trailing `np.squeeze` (which
only collapses a singleton ensemble axis) is omitted: rows are always kept
as a list of lists. -/
def sfh_to_cmf (sfrs : List (List ℝ)) (agebins : List (ℝ × ℝ)) :
    List ℝ × List (List ℝ) :=
  let ages := agebins.map (fun b => (10 : ℝ) ^ (b.1 - 9)) ++
    [(10 : ℝ) ^ ((agebins.getLastD (0, 0)).2 - 9)]
  (ages, sfrs.map (cmfRow (binWidths agebins)))

/-- The common-shape ensemble parameters taken by `params_to_sfh`:
parallel per-sample lists for both input modes. -/
structure SFHParams where
  tau : List ℝ
  tage : List ℝ
  mass : List ℝ
  logmass : List ℝ
  logsfr_ratios : List (List ℝ)

/-- The lookback-time output of `params_to_sfh`: `time.max() - time` on the
parametric path, `10**(agebins - 9)` (an `N × 2` array) on the
non-parametric path. -/
inductive Lookback where
  | times (l : List ℝ)
  | binEdges (l : List (ℝ × ℝ))
deriving Inhabited

/-- The CMF output of `params_to_sfh`: a plain array on the parametric
path, an (age grid, rows) pair on the non-parametric path (because
`sfh_to_cmf` returns a tuple). -/
inductive CmfOut where
  | arr (rows : List (List ℝ))
  | withAges (ages : List ℝ) (rows : List (List ℝ))
deriving Inhabited

/-- The per-sample loop of the parametric path of `params_to_sfh`
(sfh.py:22-26): each iteration first calls
`parametric_sfr(tau, tage, mass=mass, time=time)` — note that
`parametric_sfr` has no `time` parameter, so the keyword is swallowed by
`**extras` and `times` stays `None` — and then `parametric_cmf`. -/
def loopParametric (ts : List ℝ) : List (ℝ × ℝ × ℝ) →
    Except PyErr (List (List ℝ) × List (List ℝ))
  | [] => .ok ([], [])
  | (tau, tage, mass) :: rest => do
      let s ← parametric_sfr tau tage 1 (some mass) none none
      let sl : List ℝ := match s with | .scalar v => [v] | .arr l => l
      let c ← parametric_cmf tau tage (some ts)
      let (ss, cs) ← loopParametric ts rest
      return (sl :: ss, c :: cs)

/-- `params_to_sfh(params, time=None, agebins=None)` (sfh.py:16-39).  The
path is chosen by `parametric = (time is not None)` alone.  On the
non-parametric path with `agebins=None`, the arithmetic `10**agebins`
(and `agebins[:, 1]` inside `sfh_to_cmf`) raises `TypeError`. -/
def params_to_sfh (mt : MassTransform) (params : SFHParams)
    (time : Option (List ℝ)) (agebins : Option (List (ℝ × ℝ))) :
    Except PyErr (Lookback × List (List ℝ) × CmfOut) :=
  match time with
  | some ts => do
      let (sfhs, cmfs) ← loopParametric ts (params.tau.zip (params.tage.zip params.mass))
      let mx ← listMax ts
      return (.times (ts.map (fun t => mx - t)), sfhs, .arr cmfs)
  | none =>
      match agebins with
      | none => .error .typeError
      | some ab =>
          let sfhs := (params.logmass.zip params.logsfr_ratios).map
            (fun p => ratios_to_sfrs mt p.1 p.2 ab)
          let (ages, cm) := sfh_to_cmf sfhs ab
          .ok (.binEdges (agesGyr ab), sfhs, .withAges ages cm)

/-- Walker for `np.interp` once the query is at or past the first sample
point: interpolate inside the first segment that ends at or after `x`,
return `0` (the `right` fill value) past the last point. -/
def interpGo (x : ℝ) : ℝ → ℝ → List ℝ → List ℝ → ℝ
  | xa, ya, xb :: xs, yb :: ys =>
      if x ≤ xb then ya + (yb - ya) * (x - xa) / (xb - xa)
      else interpGo x xb yb xs ys
  | xa, ya, _, _ => if x ≤ xa then ya else 0

/-- Modelled external library function: `np.interp(x, xp, fp, left=0,
right=0)` — piecewise-linear interpolation through the points `(xp, fp)`
(with `xp` increasing), returning the fill value `0` outside `[xp[0],
xp[-1]]`.  The spec (section 4.9) describes exactly this behavior; ties in
`xp` are never queried at in the theorems below. -/
def interp (x : ℝ) : List ℝ → List ℝ → ℝ
  | x0 :: xs, y0 :: ys => if x < x0 then 0 else interpGo x x0 y0 xs ys
  | _, _ => 0

/-- The duplicated-edge abscissae of one ensemble member:
`bins.reshape(nbin*2)`, i.e. `[l0, h0, l1, h1, ...]`. -/
def flatEdges (bins : List (ℝ × ℝ)) : List ℝ :=
  bins.flatMap (fun b => [b.1, b.2])

/-- The duplicated SFR ordinates of one ensemble member:
`np.array([sfrs, sfrs]).transpose(1,2,0).reshape(-1)` per member,
i.e. `[s0, s0, s1, s1, ...]`. -/
def dupVals (sfrs : List ℝ) : List ℝ :=
  sfrs.flatMap (fun s => [s, s])

/-- One ensemble member's step-function SFH sampled onto the common grid
`tvec` (the comprehension on sfh.py:59). -/
def memberSFH (tvec : List ℝ) (bins : List (ℝ × ℝ)) (sfrs : List ℝ) : List ℝ :=
  tvec.map (fun t => interp t (flatEdges bins) (dupVals sfrs))

/-- Ordered insertion into a sorted list of reals (helper for sorting). -/
def insertR (a : ℝ) : List ℝ → List ℝ
  | [] => [a]
  | b :: t => if a ≤ b then a :: b :: t else b :: insertR a t

/-- Ascending insertion sort on reals (the sort underlying
`np.percentile`). -/
def sortR (l : List ℝ) : List ℝ := l.foldr insertR []

/-- Modelled external library function: one column of `np.percentile` with
the default linear-interpolation method — `qv` in percent, samples sorted
ascending, value interpolated at fractional position `qv/100 · (m-1)`. -/
def percentile1 (qv : ℝ) (col : List ℝ) : ℝ :=
  let s := sortR col
  let pos := qv / 100 * ((s.length : ℝ) - 1)
  let i := ⌊pos⌋₊
  s.getD i 0 + (pos - (i : ℝ)) * (s.getD (i + 1) 0 - s.getD i 0)

/-- Modelled external library function: `np.percentile(m, axis=0, q=qs)`
for a matrix `m` whose rows all have length `ncols`: one output row per
requested percentile, one entry per column. -/
def percentileAxis0 (qs : List ℝ) (m : List (List ℝ)) (ncols : ℕ) : List (List ℝ) :=
  qs.map (fun qv => (List.range ncols).map (fun k => percentile1 qv (m.map (fun r => r.getD k 0))))

/-- The signature of the external weighted quantile helper
`corner.quantile(samples, q, weights)`.  Modelled from the spec: the
function lives in `prospect/plotting/corner.py`, outside the given source
tree; per section 6 it maps `[n_members, n_points]` samples and
`len(q)` quantile fractions to a `[len(q), n_points]` array. -/
def QuantileFn : Type :=
  List (List ℝ) → List ℝ → List ℝ → List (List ℝ)

/-- Transpose of a rectangular list-of-rows matrix with `ncols` columns
(`sf.T`). -/
def transposeM (m : List (List ℝ)) (ncols : ℕ) : List (List ℝ) :=
  (List.range ncols).map (fun k => m.map (fun r => r.getD k 0))

/-- `sfh_quantiles(tvec, bins, sfrs, weights, q)` (sfh.py:42-64): build
each member's duplicated-edge step sample, interpolate it onto `tvec`
with zero fill, then take weighted quantiles (via the external
`corner.quantile`) or plain `np.percentile` across the ensemble axis. -/
def sfh_quantiles (qf : QuantileFn) (tvec : List ℝ) (bins : List (List (ℝ × ℝ)))
    (sfrs : List (List ℝ)) (weights : Option (List ℝ)) (q : List ℝ) : List (List ℝ) :=
  let sf := (bins.zip sfrs).map (fun p => memberSFH tvec p.1 p.2)
  match weights with
  | some w => qf (transposeM sf tvec.length) (q.map (fun v => v / 100)) w
  | none => percentileAxis0 q sf tvec.length

/-- The rescaled mass-weighted-age integrand `t^q · e^(-t)` (the integrands
of `parametric_mwa_numerical` after pulling out the timescale `tau`). -/
def mwaF (q : ℕ) (t : ℝ) : ℝ := t ^ q * Real.exp (-t)

/-- The trapezoidal sum of `mwaF q` on the uniform `n`-point grid over
`[0, x]` (what `np.trapz` computes on `np.linspace(0, x, n)`). -/
def trapSum (q n : ℕ) (x : ℝ) : ℝ :=
  ∑ i ∈ Finset.range (n - 1),
    (x / ((n : ℝ) - 1)) * (mwaF q (x * i / ((n : ℝ) - 1)) + mwaF q (x * (i + 1) / ((n : ℝ) - 1))) / 2

/-! ## Theorems -/

/-- C5: `parametric_cmf` signals a "not implemented" error on every call
and never returns a value. -/
theorem parametric_cmf_not_implemented (tau tage : ℝ) (times : Option (List ℝ)) :
    parametric_cmf tau tage times = .error .notImplemented := rfl

/-- C3 (code bug): with `times` omitted and scalar parameters,
`parametric_sfr` does not return the current SFR; `psi` is a numpy scalar
and the masked assignment `psi[tt < 0] = 0` raises `TypeError`, so the
call always raises instead of returning the value of the SFR formula at
lookback time 0 that its docstring promises. -/
theorem parametric_sfr_no_times_typeError (tau tage : ℝ) (power : ℕ) (m : ℝ)
    (logmass : Option ℝ) :
    parametric_sfr tau tage power (some m) logmass none = .error .typeError := rfl

/-- C4: with a lookback-times vector given (and mass given), the result is
exactly the Gamma-SFH formula
`1e-9 · mass · ((tage-t)/tau)^power · exp(-(tage-t)/tau) /
(tau · Γ(power+1) · P(power+1, tage/tau))` at each requested time, and
exactly `0` wherever `tage - t < 0`. -/
theorem parametric_sfr_times_formula (tau tage : ℝ) (power : ℕ) (m : ℝ)
    (logmass : Option ℝ) (ts : List ℝ) (htau : 0 < tau) (htage : 0 ≤ tage) :
    parametric_sfr tau tage power (some m) logmass (some ts) =
      .ok (.arr (ts.map (fun t =>
        if tage - t < 0 then 0 else
          1e-9 * (m * ((tage - t) / tau) ^ power * Real.exp (-(tage - t) / tau) /
            (tau * scipyGamma (power + 1) * gammainc (power + 1) (tage / tau)))))) := by
  simp only [parametric_sfr, npMap, maskAssignZero, bind, Except.bind]
  congr 2
  rw [List.zipWith_map_right, List.zipWith_same, List.map_map, List.map_map]
  refine List.map_congr_left fun t _ => ?_
  by_cases h : tage - t < 0 <;> simp [h] <;> ring

/-- Witness for C4 at `tau = 1`, `tage = 2`, `power = 1`, `mass = 3`,
`times = [1, 5]`. -/
theorem parametric_sfr_times_formula_witness :
    parametric_sfr 1 2 1 (some 3) none (some [1, 5]) =
      .ok (.arr ([1, 5].map (fun t =>
        if (2:ℝ) - t < 0 then 0 else
          1e-9 * (3 * ((2 - t) / 1) ^ 1 * Real.exp (-(2 - t) / 1) /
            (1 * scipyGamma 2 * gammainc 2 (2 / 1)))))) :=
  parametric_sfr_times_formula 1 2 1 3 none [1, 5] (by norm_num) (by norm_num)

/-- C2 (counterexample): supplying BOTH a time grid and an age-bin set is
not signaled as a caller error — here a call with both supplied (and an
empty ensemble) returns an ordinary value, with the age bins silently
ignored. -/
theorem params_to_sfh_both_inputs_counterexample :
    params_to_sfh (fun _ _ _ => []) ⟨[], [], [], [], []⟩ (some [1]) (some [(0, 1)]) =
      .ok (.times [0], [], .arr []) := by
  norm_num [params_to_sfh, loopParametric, listMax, bind, Except.bind, pure, Except.pure]

/-- C2 (amended): the dispatcher selects its path from the presence of the
time grid alone.  When both inputs are supplied it silently takes the
parametric path, behaving exactly as if `agebins` had not been passed;
when neither is supplied it fails with a `TypeError` coming from using
`None` as the age-bin array, not with a deliberate caller-input check. -/
theorem params_to_sfh_dispatch_amended :
    (∀ (mt : MassTransform) (params : SFHParams) (ts : List ℝ)
        (ab : Option (List (ℝ × ℝ))),
      params_to_sfh mt params (some ts) ab = params_to_sfh mt params (some ts) none) ∧
    (∀ (mt : MassTransform) (params : SFHParams),
      params_to_sfh mt params none none = .error .typeError) :=
  ⟨fun _ _ _ _ => rfl, fun _ _ => rfl⟩

theorem cumsumFrom_length (acc : ℝ) (l : List ℝ) : (cumsumFrom acc l).length = l.length := by
  induction l generalizing acc with
  | nil => rfl
  | cons x t ih => simp [cumsumFrom, ih]

theorem cumsumFrom_getLastD (l : List ℝ) (hne : l ≠ []) :
    ∀ acc d, (cumsumFrom acc l).getLastD d = acc + l.sum := by
  induction l with
  | nil => exact absurd rfl hne
  | cons x t ih =>
    intro acc d
    cases t with
    | nil => simp [cumsumFrom]
    | cons y t' =>
      rw [cumsumFrom, List.getLastD_cons, ih (by simp)]
      simp; ring

theorem chain'_le_cumsumFrom (l : List ℝ) (h : ∀ x ∈ l, 0 ≤ x) :
    ∀ acc, List.Chain' (· ≤ ·) (cumsumFrom acc l) := by
  induction l with
  | nil => intro acc; simp [cumsumFrom]
  | cons x t ih =>
    intro acc
    rw [cumsumFrom, List.chain'_cons']
    refine ⟨?_, ih (fun y hy => h y (List.mem_cons_of_mem x hy)) (acc + x)⟩
    intro y hy
    cases t with
    | nil => simp [cumsumFrom] at hy
    | cons z t' =>
      simp only [cumsumFrom, List.head?_cons, Option.mem_def, Option.some.injEq] at hy
      have hz : 0 ≤ z := h z (by simp)
      linarith [hy ▸ le_refl y]

theorem zipWith_mul_nonneg :
    ∀ (l1 l2 : List ℝ), (∀ a ∈ l1, 0 ≤ a) → (∀ b ∈ l2, 0 ≤ b) →
      ∀ x ∈ List.zipWith (fun s w => s * w) l1 l2, 0 ≤ x
  | [], _, _, _ => by simp
  | _ :: _, [], _, _ => by simp
  | a :: t1, b :: t2, h1, h2 => by
    intro x hx
    rcases List.mem_cons.mp hx with h | h
    · exact h ▸ mul_nonneg (h1 a (by simp)) (h2 b (by simp))
    · exact zipWith_mul_nonneg t1 t2 (fun y hy => h1 y (by simp [hy]))
        (fun y hy => h2 y (by simp [hy])) x h

/-- Core of the CMF-row characterization: for a nonnegative mass list
with positive sum, the list `(0 :: cumsum/total).reverse` runs
monotonically down from exactly `1` to exactly `0`. -/
theorem cmf_core (ms : List ℝ) (hms : ∀ x ∈ ms, 0 ≤ x) (hpos : 0 < ms.sum) :
    ((0 :: (cumsum ms).map (fun v => v / (cumsum ms).getLastD 0)).reverse).head? = some 1 ∧
    ((0 :: (cumsum ms).map (fun v => v / (cumsum ms).getLastD 0)).reverse).getLast? = some 0 ∧
    List.Chain' (fun a b => b ≤ a)
      ((0 :: (cumsum ms).map (fun v => v / (cumsum ms).getLastD 0)).reverse) ∧
    ((0 :: (cumsum ms).map (fun v => v / (cumsum ms).getLastD 0)).reverse).length
      = ms.length + 1 := by
  cases ms with
  | nil => simp at hpos
  | cons m ms' =>
  have hm0 : 0 ≤ m := hms m (by simp)
  have hT : (cumsum (m :: ms')).getLastD 0 = (m :: ms').sum := by
    rw [cumsum, cumsumFrom_getLastD _ (by simp)]
    ring
  have hTpos : 0 < (cumsum (m :: ms')).getLastD 0 := by rw [hT]; exact hpos
  have hcm_ne : cumsum (m :: ms') ≠ [] := by simp [cumsum, cumsumFrom]
  have hlast_cm : (cumsum (m :: ms')).getLast? = some ((cumsum (m :: ms')).getLastD 0) := by
    rw [List.getLastD_eq_getLast?]
    cases h : (cumsum (m :: ms')).getLast? with
    | none => exact absurd (List.getLast?_eq_none_iff.mp h) hcm_ne
    | some y => rfl
  refine ⟨?_, ?_, ?_, ?_⟩
  · rw [List.head?_reverse]
    have h2 : (0 :: (cumsum (m :: ms')).map
          (fun v => v / (cumsum (m :: ms')).getLastD 0)).getLast? =
        ((cumsum (m :: ms')).map (fun v => v / (cumsum (m :: ms')).getLastD 0)).getLast? := by
      simp only [cumsum, cumsumFrom, List.map_cons, List.getLast?_cons_cons]
    rw [h2, List.getLast?_map, hlast_cm, Option.map_some']
    exact congrArg some (div_self (ne_of_gt hTpos))
  · rw [List.getLast?_reverse]
    rfl
  · rw [List.chain'_reverse]
    show List.Chain' (fun a b : ℝ => a ≤ b) _
    rw [List.chain'_cons']
    constructor
    · intro y hy
      simp only [cumsum, cumsumFrom, List.map_cons, List.head?_cons, Option.mem_def,
        Option.some.injEq] at hy
      rw [← hy]
      positivity
    · refine (List.chain'_map _).mpr ?_
      exact List.Chain'.imp (fun a b hab => (div_le_div_right hTpos).mpr hab)
        (chain'_le_cumsumFrom (m :: ms') hms 0)
  · simp [cumsum, cumsumFrom_length]

/-- Full characterization of one CMF row produced by `sfh_to_cmf`: with
nonnegative SFRs, nonnegative widths and positive total mass, the row has
`N+1` entries and runs monotonically DOWN from exactly `1` (at the
youngest edge) to exactly `0` (at the oldest edge). -/
theorem cmfRow_spec (dt r : List ℝ) (hr : ∀ s ∈ r, 0 ≤ s) (hdt : ∀ w ∈ dt, 0 ≤ w)
    (hpos : 0 < (List.zipWith (fun s w => s * w) r dt).sum) :
    (cmfRow dt r).head? = some 1 ∧ (cmfRow dt r).getLast? = some 0 ∧
      List.Chain' (fun a b => b ≤ a) (cmfRow dt r) ∧
      (cmfRow dt r).length = min r.length dt.length + 1 := by
  have hcore := cmf_core ((List.zipWith (fun s w => s * w) r dt).reverse)
    (fun x hx => zipWith_mul_nonneg r dt hr hdt x (List.mem_reverse.mp hx))
    (by rw [List.sum_reverse]; exact hpos)
  rw [cmfRow]
  refine ⟨hcore.1, hcore.2.1, hcore.2.2.1, ?_⟩
  rw [hcore.2.2.2]
  simp [List.length_zipWith]

/-- C1 (amended): for a bin set of `N` widening bins and any ensemble
member with nonnegative SFRs and positive total formed mass, the age grid
returned by `sfh_to_cmf` has `N+1` points and the member's CMF row has
`N+1` values which are monotonically non-INCREASING along the ascending
age axis, with first value exactly `1` and last value exactly `0` (the
row is cumulative in lookback time: everything is formed by the youngest
edge, nothing before the oldest edge). -/
theorem sfh_to_cmf_monotone_amended (sfrs : List (List ℝ)) (agebins : List (ℝ × ℝ))
    (r : List ℝ)
    (hlt : ∀ b ∈ agebins, b.1 ≤ b.2)
    (hrlen : r.length = agebins.length)
    (hrn : ∀ s ∈ r, 0 ≤ s)
    (hpos : 0 < (List.zipWith (fun s w => s * w) r (binWidths agebins)).sum) :
    (sfh_to_cmf sfrs agebins).1.length = agebins.length + 1 ∧
    (sfh_to_cmf sfrs agebins).2 = sfrs.map (cmfRow (binWidths agebins)) ∧
    (cmfRow (binWidths agebins) r).length = agebins.length + 1 ∧
    (cmfRow (binWidths agebins) r).head? = some 1 ∧
    (cmfRow (binWidths agebins) r).getLast? = some 0 ∧
    List.Chain' (fun a b => b ≤ a) (cmfRow (binWidths agebins) r) := by
  have hdt : ∀ w ∈ binWidths agebins, 0 ≤ w := by
    intro w hw
    obtain ⟨b, hb, rfl⟩ := List.mem_map.mp hw
    have : (10 : ℝ) ^ b.1 ≤ (10 : ℝ) ^ b.2 :=
      (Real.rpow_le_rpow_left_iff (by norm_num : (1:ℝ) < 10)).mpr (hlt b hb)
    linarith
  have hspec := cmfRow_spec (binWidths agebins) r hrn hdt hpos
  have hdtlen : (binWidths agebins).length = agebins.length := List.length_map _ _
  refine ⟨?_, rfl, ?_, hspec.1, hspec.2.1, hspec.2.2.1⟩
  · simp [sfh_to_cmf]
  · rw [hspec.2.2.2, hrlen, hdtlen, min_self]

/-- Witness for the amended C1 at `sfrs = [[1,1]]`,
`agebins = [(0,1),(1,2)]` (bin widths 9 and 90 years, total mass 99). -/
theorem sfh_to_cmf_monotone_amended_witness :
    (cmfRow (binWidths [(0, 1), (1, 2)]) [1, 1]).head? = some 1 ∧
    (cmfRow (binWidths [(0, 1), (1, 2)]) [1, 1]).getLast? = some 0 := by
  have h1 : (10 : ℝ) ^ (1 : ℝ) = 10 := Real.rpow_one 10
  have h0 : (10 : ℝ) ^ (0 : ℝ) = 1 := Real.rpow_zero 10
  have h2 : (10 : ℝ) ^ (2 : ℝ) = 100 := by
    rw [show (2 : ℝ) = ((2 : ℕ) : ℝ) by norm_num, Real.rpow_natCast]
    norm_num
  have h := sfh_to_cmf_monotone_amended [[1, 1]] [(0, 1), (1, 2)] [1, 1]
    (by norm_num) (by rfl) (by norm_num)
    (by simp [binWidths, h0, h1, h2])
  exact ⟨h.2.2.2.1, h.2.2.2.2.1⟩

/-- C1 (counterexample): at the valid input `sfrs = [[1,1]]`,
`agebins = [(0,1),(1,2)]` (nonnegative SFRs, widening bins, positive
total mass) the CMF row returned by `sfh_to_cmf` is `[1, 10/11, 0]`: it is
NOT monotonically non-decreasing, its first value is not 0, and its last
value is not 1, contradicting the claimed invariant. -/
theorem sfh_to_cmf_claim_counterexample :
    (sfh_to_cmf [[1, 1]] [(0, 1), (1, 2)]).2 = [[1, 10 / 11, 0]] ∧
    ¬ (List.Chain' (· ≤ ·) [(1 : ℝ), 10 / 11, 0] ∧
        [(1 : ℝ), 10 / 11, 0].head? = some 0 ∧
        [(1 : ℝ), 10 / 11, 0].getLast? = some 1) := by
  have h1 : (10 : ℝ) ^ (1 : ℝ) = 10 := Real.rpow_one 10
  have h0 : (10 : ℝ) ^ (0 : ℝ) = 1 := Real.rpow_zero 10
  have h2 : (10 : ℝ) ^ (2 : ℝ) = 100 := by
    rw [show (2 : ℝ) = ((2 : ℕ) : ℝ) by norm_num, Real.rpow_natCast]
    norm_num
  constructor
  · simp [sfh_to_cmf, cmfRow, binWidths, cumsum, cumsumFrom, h0, h1, h2]
    norm_num
  · rintro ⟨-, hh, -⟩
    norm_num at hh

/-- C7: assuming the external mass transform satisfies its documented
contract, `ratios_to_sfrs` with the single log-SFR-ratio `0` on two bins
of equal (positive) linear width returns equal SFR in both bins, and the
SFR-times-width sum over the bins recovers the total mass `10^logmass`. -/
theorem ratios_to_sfrs_equal_bins (mt : MassTransform) (lm : ℝ) (b0 b1 : ℝ × ℝ)
    (hc : massTransformContract mt lm [0] [b0, b1])
    (hw : 0 < (10 : ℝ) ^ b0.2 - (10 : ℝ) ^ b0.1)
    (heq : (10 : ℝ) ^ b0.2 - (10 : ℝ) ^ b0.1 = (10 : ℝ) ^ b1.2 - (10 : ℝ) ^ b1.1) :
    (ratios_to_sfrs mt lm [0] [b0, b1]).length = 2 ∧
    (ratios_to_sfrs mt lm [0] [b0, b1]).getD 0 0 = (ratios_to_sfrs mt lm [0] [b0, b1]).getD 1 0 ∧
    (ratios_to_sfrs mt lm [0] [b0, b1]).getD 0 0 * ((10 : ℝ) ^ b0.2 - (10 : ℝ) ^ b0.1) +
      (ratios_to_sfrs mt lm [0] [b0, b1]).getD 1 0 * ((10 : ℝ) ^ b1.2 - (10 : ℝ) ^ b1.1) =
      (10 : ℝ) ^ lm := by
  obtain ⟨hlen, hsum, hrat⟩ := hc
  obtain ⟨m0, m1, hml⟩ := List.length_eq_two.mp (by simpa using hlen)
  have hbw : binWidths [b0, b1] =
      [(10 : ℝ) ^ b0.2 - (10 : ℝ) ^ b0.1, (10 : ℝ) ^ b1.2 - (10 : ℝ) ^ b1.1] := rfl
  have hr0 := hrat 0 (by norm_num)
  rw [hml] at hr0 hsum
  rw [hbw] at hr0
  simp only [List.getD, List.getElem?_cons_zero, List.getElem?_cons_succ, Option.getD_some,
    List.get?_eq_getElem?] at hr0
  rw [Real.rpow_zero, one_mul] at hr0
  have hw1 : 0 < (10 : ℝ) ^ b1.2 - (10 : ℝ) ^ b1.1 := heq ▸ hw
  have hsfr : ratios_to_sfrs mt lm [0] [b0, b1] =
      [m0 / ((10 : ℝ) ^ b0.2 - (10 : ℝ) ^ b0.1), m1 / ((10 : ℝ) ^ b1.2 - (10 : ℝ) ^ b1.1)] := by
    rw [ratios_to_sfrs, hml, hbw]
    rfl
  rw [hsfr]
  refine ⟨rfl, ?_, ?_⟩
  · simpa using hr0
  · have e0 : ([m0 / ((10 : ℝ) ^ b0.2 - (10 : ℝ) ^ b0.1),
        m1 / ((10 : ℝ) ^ b1.2 - (10 : ℝ) ^ b1.1)]).getD 0 0 =
        m0 / ((10 : ℝ) ^ b0.2 - (10 : ℝ) ^ b0.1) := rfl
    have e1 : ([m0 / ((10 : ℝ) ^ b0.2 - (10 : ℝ) ^ b0.1),
        m1 / ((10 : ℝ) ^ b1.2 - (10 : ℝ) ^ b1.1)]).getD 1 0 =
        m1 / ((10 : ℝ) ^ b1.2 - (10 : ℝ) ^ b1.1) := rfl
    rw [e0, e1, div_mul_cancel₀ _ (ne_of_gt hw), div_mul_cancel₀ _ (ne_of_gt hw1)]
    simpa using hsum

/-- Witness for C7: the transform returning masses `[1/2, 1/2]` satisfies
the contract at `logmass = 0` on the bins
`[(0, log10 2), (log10 2, log10 3)]` (both of linear width 1). -/
theorem ratios_to_sfrs_equal_bins_witness :
    (ratios_to_sfrs (fun _ _ _ => [1 / 2, 1 / 2]) 0 [0]
        [((0 : ℝ), Real.logb 10 2), (Real.logb 10 2, Real.logb 10 3)]).getD 0 0 =
      (ratios_to_sfrs (fun _ _ _ => [1 / 2, 1 / 2]) 0 [0]
        [((0 : ℝ), Real.logb 10 2), (Real.logb 10 2, Real.logb 10 3)]).getD 1 0 := by
  have hl2 : (10 : ℝ) ^ Real.logb 10 2 = 2 :=
    Real.rpow_logb (by norm_num) (by norm_num) (by norm_num)
  have hl3 : (10 : ℝ) ^ Real.logb 10 3 = 3 :=
    Real.rpow_logb (by norm_num) (by norm_num) (by norm_num)
  have h0 : (10 : ℝ) ^ (0 : ℝ) = 1 := Real.rpow_zero 10
  refine (ratios_to_sfrs_equal_bins _ 0 _ _ ⟨rfl, ?_, ?_⟩ ?_ ?_).2.1
  · simp [Real.rpow_zero]
    norm_num
  · intro i hi
    have hi0 : i = 0 := by simp at hi; omega
    subst hi0
    simp [binWidths, hl2, hl3, h0]
    norm_num
  · simp only [hl2, h0]
    norm_num
  · simp only [hl2, hl3, h0]
    norm_num

theorem zipWith_zero_left_sum :
    ∀ (fl ml : List ℝ), (∀ f ∈ fl, f = 0) →
      (List.zipWith (fun f x => f * x) fl ml).sum = 0
  | [], _, _ => by simp
  | _ :: _, [], _ => by simp
  | f :: fl', x :: ml', h => by
    rw [List.zipWith_cons_cons, List.sum_cons, h f (by simp),
      zipWith_zero_left_sum fl' ml' (fun g hg => h g (by simp [hg]))]
    ring

theorem ft_head_sum (ftr : List ℝ) (hz : ∀ f ∈ ftr, f = 0) (m : List ℝ) (hm : m ≠ []) :
    (List.zipWith (fun f x => f * x) (1 :: ftr) m).sum = m.headD 0 := by
  cases m with
  | nil => exact absurd rfl hm
  | cons m0 mr =>
    rw [List.zipWith_cons_cons, List.sum_cons, zipWith_zero_left_sum ftr mr hz]
    simp

/-- C8: with `sfr_period` equal to the youngest bin's upper edge in Gyr,
`nonpar_recent_sfr` gives, for every ensemble member, the mean SFR over
the window computed from the youngest bin's mass alone: the youngest bin
gets coverage fraction 1 and every older bin gets coverage fraction 0. -/
theorem nonpar_recent_sfr_exact_bin_edge (mt : MassTransform) (logmass : List ℝ)
    (lsr : List (List ℝ)) (l0 h0 : ℝ) (rest : List (ℝ × ℝ))
    (hw : ∀ b ∈ (l0, h0) :: rest, b.1 < b.2)
    (hord : ∀ b ∈ rest, h0 ≤ b.1)
    (hlen : ∀ p ∈ logmass.zip lsr,
      (mt p.1 p.2 ((l0, h0) :: rest)).length = rest.length + 1) :
    nonpar_recent_sfr mt logmass lsr ((l0, h0) :: rest) ((10 : ℝ) ^ (h0 - 9)) =
      (logmass.zip lsr).map (fun p =>
        (mt p.1 p.2 ((l0, h0) :: rest)).headD 0 / ((10 : ℝ) ^ (h0 - 9) * 1e9)) := by
  have hlh : (10 : ℝ) ^ (l0 - 9) < (10 : ℝ) ^ (h0 - 9) := by
    refine (Real.rpow_lt_rpow_left_iff (by norm_num)).mpr ?_
    have := hw (l0, h0) (by simp)
    simpa using by linarith
  have hft0 : clip (((10 : ℝ) ^ (h0 - 9) - (10 : ℝ) ^ (l0 - 9)) /
      ((10 : ℝ) ^ (h0 - 9) - (10 : ℝ) ^ (l0 - 9))) 0 1 = 1 := by
    rw [div_self (by linarith)]
    rw [clip]
    norm_num
  have hftz : ∀ f ∈ (agesGyr rest).map
      (fun a => clip (((10 : ℝ) ^ (h0 - 9) - a.1) / (a.2 - a.1)) 0 1), f = 0 := by
    intro f hf
    obtain ⟨a, ha, rfl⟩ := List.mem_map.mp hf
    obtain ⟨b, hb, rfl⟩ := List.mem_map.mp ha
    have h1 : (10 : ℝ) ^ (h0 - 9) ≤ (10 : ℝ) ^ (b.1 - 9) := by
      refine (Real.rpow_le_rpow_left_iff (by norm_num)).mpr ?_
      have := hord b hb
      linarith
    have h2 : (10 : ℝ) ^ (b.1 - 9) < (10 : ℝ) ^ (b.2 - 9) := by
      refine (Real.rpow_lt_rpow_left_iff (by norm_num)).mpr ?_
      have := hw b (by simp [hb])
      linarith
    have hq : ((10 : ℝ) ^ (h0 - 9) - (10 : ℝ) ^ (b.1 - 9)) /
        ((10 : ℝ) ^ (b.2 - 9) - (10 : ℝ) ^ (b.1 - 9)) ≤ 0 :=
      div_nonpos_of_nonpos_of_nonneg (by linarith) (by linarith)
    rw [clip]
    rw [max_eq_right hq, min_eq_left (by norm_num)]
  rw [nonpar_recent_sfr, List.map_map]
  refine List.map_congr_left fun p hp => ?_
  show (List.zipWith (fun f x => f * x) _ (mt p.1 p.2 ((l0, h0) :: rest))).sum /
      ((10 : ℝ) ^ (h0 - 9) * 1e9) = _
  have hmne : mt p.1 p.2 ((l0, h0) :: rest) ≠ [] := by
    intro hnil
    have := hlen p hp
    rw [hnil] at this
    simp at this
  rw [show (agesGyr ((l0, h0) :: rest)).map
      (fun a => clip (((10 : ℝ) ^ (h0 - 9) - a.1) / (a.2 - a.1)) 0 1) =
      1 :: (agesGyr rest).map
        (fun a => clip (((10 : ℝ) ^ (h0 - 9) - a.1) / (a.2 - a.1)) 0 1) by
    simp [agesGyr, hft0]]
  rw [ft_head_sum _ hftz _ hmne]

/-- C10: a positive averaging window lying entirely below every bin's
lower edge yields zero recent SFR for every ensemble member — silently,
not an error, and not the youngest bin's SFR. -/
theorem nonpar_recent_sfr_below_bins_zero (mt : MassTransform) (logmass : List ℝ)
    (lsr : List (List ℝ)) (agebins : List (ℝ × ℝ)) (P : ℝ)
    (hP : 0 < P) (hw : ∀ b ∈ agebins, b.1 < b.2)
    (hbelow : ∀ b ∈ agebins, P ≤ (10 : ℝ) ^ (b.1 - 9)) :
    nonpar_recent_sfr mt logmass lsr agebins P = (logmass.zip lsr).map (fun _ => 0) := by
  have hftz : ∀ f ∈ (agesGyr agebins).map
      (fun a => clip ((P - a.1) / (a.2 - a.1)) 0 1), f = 0 := by
    intro f hf
    obtain ⟨a, ha, rfl⟩ := List.mem_map.mp hf
    obtain ⟨b, hb, rfl⟩ := List.mem_map.mp ha
    have h1 : P ≤ (10 : ℝ) ^ (b.1 - 9) := hbelow b hb
    have h2 : (10 : ℝ) ^ (b.1 - 9) < (10 : ℝ) ^ (b.2 - 9) := by
      refine (Real.rpow_lt_rpow_left_iff (by norm_num)).mpr ?_
      have := hw b hb
      linarith
    have hq : (P - (10 : ℝ) ^ (b.1 - 9)) / ((10 : ℝ) ^ (b.2 - 9) - (10 : ℝ) ^ (b.1 - 9)) ≤ 0 :=
      div_nonpos_of_nonpos_of_nonneg (by linarith) (by linarith)
    rw [clip, max_eq_right hq, min_eq_left (by norm_num)]
  rw [nonpar_recent_sfr, List.map_map]
  refine List.map_congr_left fun p _ => ?_
  show (List.zipWith (fun f x => f * x) _ (mt p.1 p.2 agebins)).sum / (P * 1e9) = 0
  rw [zipWith_zero_left_sum _ _ hftz, zero_div]

/-- Witness for C8 at one ensemble member with masses `[2, 3]` on bins
`[(0,1),(1,2)]` and `sfr_period = 10^(1-9)` Gyr. -/
theorem nonpar_recent_sfr_exact_bin_edge_witness :
    nonpar_recent_sfr (fun _ _ _ => [2, 3]) [0] [[0]] [(0, 1), (1, 2)] ((10 : ℝ) ^ ((1 : ℝ) - 9)) =
      [2 / ((10 : ℝ) ^ ((1 : ℝ) - 9) * 1e9)] := by
  have h := nonpar_recent_sfr_exact_bin_edge (fun _ _ _ => [2, 3]) [0] [[0]] 0 1 [(1, 2)]
    (by norm_num) (by norm_num) (by norm_num)
  simpa using h

/-- Witness for C10 at one ensemble member on the bin `[(0,1)]` with
`sfr_period = 10^(0-9)` Gyr, equal to the lower edge. -/
theorem nonpar_recent_sfr_below_bins_zero_witness :
    nonpar_recent_sfr (fun _ _ _ => [5]) [1] [[0]] [(0, 1)] ((10 : ℝ) ^ ((0 : ℝ) - 9)) =
      [0] := by
  have h := nonpar_recent_sfr_below_bins_zero (fun _ _ _ => [5]) [1] [[0]] [(0, 1)]
    ((10 : ℝ) ^ ((0 : ℝ) - 9)) (Real.rpow_pos_of_pos (by norm_num) _)
    (by norm_num) (by norm_num)
  simpa using h

theorem interpGo_gt (t : ℝ) :
    ∀ (xs ys : List ℝ) (xa ya : ℝ), (∀ x ∈ xs, x < t) → xa < t →
      interpGo t xa ya xs ys = 0
  | [], ys, xa, ya, _, hxa => by
    simp only [interpGo]
    exact if_neg (not_le.mpr hxa)
  | xb :: xs', [], xa, ya, _, hxa => by
    simp only [interpGo]
    exact if_neg (not_le.mpr hxa)
  | xb :: xs', yb :: ys', xa, ya, hxs, hxa => by
    rw [interpGo, if_neg (not_le.mpr (hxs xb (by simp)))]
    exact interpGo_gt t xs' ys' xb yb (fun x hx => hxs x (by simp [hx])) (hxs xb (by simp))

theorem flatEdges_cons (b : ℝ × ℝ) (rest : List (ℝ × ℝ)) :
    flatEdges (b :: rest) = b.1 :: b.2 :: flatEdges rest := rfl

theorem dupVals_cons (s : ℝ) (rest : List ℝ) :
    dupVals (s :: rest) = s :: s :: dupVals rest := rfl

/-- Below the member's own span, the interpolated step sample is the left
fill value `0`. -/
theorem interp_lt_first (t : ℝ) (b0 : ℝ × ℝ) (rest : List (ℝ × ℝ)) (v : List ℝ)
    (ht : t < b0.1) : interp t (flatEdges (b0 :: rest)) v = 0 := by
  rw [flatEdges_cons]
  cases v with
  | nil => rfl
  | cons y ys =>
    rw [interp]
    exact if_pos ht

/-- Above every edge of the member's own span, the interpolated step
sample is the right fill value `0`. -/
theorem interp_gt_all (t : ℝ) (bins : List (ℝ × ℝ)) (v : List ℝ)
    (h : ∀ b ∈ bins, b.1 < t ∧ b.2 < t) :
    interp t (flatEdges bins) v = 0 := by
  cases bins with
  | nil =>
    cases v with
    | nil => rfl
    | cons y ys => rfl
  | cons b0 rest =>
    rw [flatEdges_cons]
    cases v with
    | nil => rfl
    | cons y ys =>
      rw [interp, if_neg (not_lt.mpr (le_of_lt (h b0 (by simp)).1))]
      refine interpGo_gt t _ _ _ _ ?_ (h b0 (by simp)).1
      intro x hx
      rcases List.mem_cons.mp hx with rfl | hx'
      · exact (h b0 (by simp)).2
      · simp only [flatEdges, List.mem_flatMap] at hx'
        obtain ⟨b, hb, hmem⟩ := hx'
        have hbt := h b (by simp [hb])
        rcases List.mem_cons.mp hmem with rfl | hmem'
        · exact hbt.1
        · have : x = b.2 := by simpa using hmem'
          exact this ▸ hbt.2

/-- Ordered bin sets keep all their upper edges at or below the last
bin's upper edge. -/
theorem getLastD_default_irrel {α : Type} (l : List α) (d d' : α) (h : l ≠ []) :
    l.getLastD d = l.getLastD d' := by
  rw [List.getLastD_eq_getLast?, List.getLastD_eq_getLast?]
  cases h' : l.getLast? with
  | none => exact absurd (List.getLast?_eq_none_iff.mp h') h
  | some y => rfl

theorem edges_le_last :
    ∀ (bins : List (ℝ × ℝ)), (∀ b ∈ bins, b.1 < b.2) →
      List.Chain' (fun b c => b.2 ≤ c.1) bins →
      ∀ b ∈ bins, b.2 ≤ (bins.getLastD (0, 0)).2
  | [], _, _ => by simp
  | [b0], _, _ => by simp
  | b0 :: r :: rest, hw, hch => by
    intro b hb
    have hch' : List.Chain' (fun b c => b.2 ≤ c.1) (r :: rest) := hch.tail
    have ih := edges_le_last (r :: rest) (fun c hc => hw c (by simp [List.mem_cons.mp hc])) hch'
    rw [show ((b0 :: r :: rest).getLastD (0, 0)) = ((r :: rest).getLastD (0, 0)) from by
      rw [List.getLastD_cons]
      exact getLastD_default_irrel _ _ _ (by simp)]
    rcases List.mem_cons.mp hb with rfl | hb'
    · have h01 : b.2 ≤ r.1 := (List.chain'_cons.mp hch).1
      have hr12 : r.1 < r.2 := hw r (by simp)
      have := ih r (by simp)
      linarith
    · exact ih b hb'

/-- In an ordered bin set, every later bin's lower edge is at or above the
first bin's upper edge. -/
theorem bins_le_getD :
    ∀ (rest : List (ℝ × ℝ)) (b0 : ℝ × ℝ), (∀ b ∈ b0 :: rest, b.1 < b.2) →
      List.Chain' (fun b c => b.2 ≤ c.1) (b0 :: rest) →
      ∀ i, i < rest.length → b0.2 ≤ (rest.getD i (0, 0)).1
  | [], _, _, _ => by simp
  | r :: rest', b0, hw, hch => by
    intro i hi
    cases i with
    | zero => exact (List.chain'_cons.mp hch).1
    | succ j =>
      have hj : j < rest'.length := by simpa using hi
      have ih := bins_le_getD rest' r (fun b hb => hw b (by simp [List.mem_cons.mp hb]))
        (List.chain'_cons.mp hch).2 j hj
      have h01 : b0.2 ≤ r.1 := (List.chain'_cons.mp hch).1
      have hr12 : r.1 < r.2 := hw r (by simp)
      calc b0.2 ≤ r.1 := h01
        _ ≤ r.2 := le_of_lt hr12
        _ ≤ ((r :: rest').getD (j + 1) (0, 0)).1 := by
            rw [show ((r :: rest').getD (j + 1) (0, 0)) = rest'.getD j (0, 0) from rfl]
            exact ih

/-- Walking past an entire bin whose edges are strictly below the query
leaves the interpolation unchanged. -/
theorem interp_skip (t : ℝ) (b0 r1 : ℝ × ℝ) (rest' : List (ℝ × ℝ))
    (s0 s1 : ℝ) (s'' : List ℝ)
    (hb0 : b0.1 < t) (hb2 : b0.2 < t) (hr1 : r1.1 < t) :
    interp t (flatEdges (b0 :: r1 :: rest')) (dupVals (s0 :: s1 :: s'')) =
      interp t (flatEdges (r1 :: rest')) (dupVals (s1 :: s'')) := by
  rw [flatEdges_cons, flatEdges_cons, dupVals_cons, dupVals_cons]
  rw [interp, if_neg (not_lt.mpr (le_of_lt hb0))]
  rw [interpGo, if_neg (not_le.mpr hb2)]
  rw [interpGo, if_neg (not_le.mpr hr1)]
  rw [interp, if_neg (not_lt.mpr (le_of_lt hr1))]

/-- Strictly inside its `i`-th bin, the member's duplicated-edge step
sample interpolates to exactly that bin's SFR value. -/
theorem interp_inside :
    ∀ (bins : List (ℝ × ℝ)) (s : List ℝ) (i : ℕ) (t : ℝ),
      (∀ b ∈ bins, b.1 < b.2) → List.Chain' (fun b c => b.2 ≤ c.1) bins →
      s.length = bins.length → i < bins.length →
      (bins.getD i (0, 0)).1 < t → t < (bins.getD i (0, 0)).2 →
      interp t (flatEdges bins) (dupVals s) = s.getD i 0
  | [], _, i, _, _, _, _, hi, _, _ => absurd hi (by simp)
  | b0 :: rest, s, i, t, hw, hch, hlen, hi, htl, htr => by
    obtain ⟨s0, s', rfl⟩ : ∃ s0 s', s = s0 :: s' := by
      cases s with
      | nil => simp at hlen
      | cons a l => exact ⟨a, l, rfl⟩
    cases i with
    | zero =>
      simp only [List.getD_cons_zero] at htl htr
      rw [flatEdges_cons, dupVals_cons, interp, if_neg (not_lt.mpr (le_of_lt htl)),
        interpGo, if_pos (le_of_lt htr)]
      simp
    | succ j =>
      simp only [List.getD_cons_succ] at htl htr
      have hj : j < rest.length := by simpa using hi
      obtain ⟨r1, rest', rfl⟩ : ∃ r1 rest', rest = r1 :: rest' := by
        cases rest with
        | nil => simp at hj
        | cons a l => exact ⟨a, l, rfl⟩
      obtain ⟨s1, s'', rfl⟩ : ∃ s1 s'', s' = s1 :: s'' := by
        cases s' with
        | nil => simp at hlen
        | cons a l => exact ⟨a, l, rfl⟩
      have hb02 : b0.2 ≤ ((r1 :: rest').getD j (0, 0)).1 := bins_le_getD _ b0 hw hch j hj
      have hb2t : b0.2 < t := lt_of_le_of_lt hb02 htl
      have hb0t : b0.1 < t := lt_trans (hw b0 (by simp)) hb2t
      have hr1t : r1.1 < t := by
        cases j with
        | zero => simpa using htl
        | succ k =>
          have hk : k < rest'.length := by simpa using hj
          have h12 := bins_le_getD rest' r1 (fun b hb => hw b (by
            rcases List.mem_cons.mp hb with rfl | hb'
            · simp
            · simp [hb'])) hch.tail k hk
          have hr12 : r1.1 < r1.2 := hw r1 (by simp)
          have : ((r1 :: rest').getD (k + 1) (0, 0)) = rest'.getD k (0, 0) := rfl
          rw [this] at htl
          linarith
      rw [interp_skip t b0 r1 rest' s0 s1 s'' hb0t hb2t hr1t]
      rw [show (s0 :: s1 :: s'').getD (j + 1) 0 = (s1 :: s'').getD j 0 from rfl]
      exact interp_inside (r1 :: rest') (s1 :: s'') j t
        (fun b hb => hw b (by simp [List.mem_cons.mp hb]))
        hch.tail (by simpa using hlen) hj htl htr

/-- C9: on the unweighted path, `sfh_quantiles` returns one row per
requested quantile, each with one entry per target grid point
(shape `[n_quantiles, n_grid_points]`), computed from the per-member
step-function samples; and each member's contribution is its
piecewise-constant SFH — exactly the bin's SFR strictly inside each of
its own bins, and exactly `0` at grid points outside the member's own
bin-set span (below its first lower edge or above its last upper edge). -/
theorem sfh_quantiles_shape_and_interp (qf : QuantileFn) (tvec : List ℝ)
    (bins : List (List (ℝ × ℝ))) (sfrs : List (List ℝ)) (q : List ℝ)
    (bj : List (ℝ × ℝ)) (sj : List ℝ)
    (hw : ∀ b ∈ bj, b.1 < b.2)
    (hch : List.Chain' (fun b c => b.2 ≤ c.1) bj)
    (hlen : sj.length = bj.length) :
    (sfh_quantiles qf tvec bins sfrs none q).length = q.length ∧
    (∀ row ∈ sfh_quantiles qf tvec bins sfrs none q, row.length = tvec.length) ∧
    sfh_quantiles qf tvec bins sfrs none q =
      percentileAxis0 q ((bins.zip sfrs).map (fun p => memberSFH tvec p.1 p.2)) tvec.length ∧
    (∀ i t, i < bj.length → (bj.getD i (0, 0)).1 < t → t < (bj.getD i (0, 0)).2 →
      interp t (flatEdges bj) (dupVals sj) = sj.getD i 0) ∧
    (∀ t b0 rest, bj = b0 :: rest → t < b0.1 →
      interp t (flatEdges bj) (dupVals sj) = 0) ∧
    (∀ t, (bj.getLastD (0, 0)).2 < t →
      interp t (flatEdges bj) (dupVals sj) = 0) := by
  refine ⟨?_, ?_, rfl, ?_, ?_, ?_⟩
  · simp [sfh_quantiles, percentileAxis0]
  · intro row hrow
    simp only [sfh_quantiles, percentileAxis0, List.mem_map] at hrow
    obtain ⟨qv, _, rfl⟩ := hrow
    simp
  · intro i t hi htl htr
    exact interp_inside bj sj i t hw hch hlen hi htl htr
  · intro t b0 rest hbj ht
    rw [hbj]
    exact interp_lt_first t b0 rest _ ht
  · intro t ht
    refine interp_gt_all t bj _ fun b hb => ?_
    have h2 := edges_le_last bj hw hch b hb
    have h1 := hw b hb
    constructor <;> linarith

/-- Witness for C9 at `tvec = [0,1,2]`, one member with the single bin
`(1/2, 3/2)` and SFR `5`, `q = [50]`. -/
theorem sfh_quantiles_shape_and_interp_witness :
    (sfh_quantiles (fun _ _ _ => []) [0, 1, 2] [[((1 : ℝ)/2, 3/2)]] [[5]] none [50]).length = 1 ∧
    interp 1 (flatEdges [((1 : ℝ)/2, 3/2)]) (dupVals [5]) = 5 ∧
    interp 2 (flatEdges [((1 : ℝ)/2, 3/2)]) (dupVals [5]) = 0 := by
  have h := sfh_quantiles_shape_and_interp (fun _ _ _ => []) [0, 1, 2]
    [[((1 : ℝ)/2, 3/2)]] [[5]] [50] [((1 : ℝ)/2, 3/2)] [5]
    (by norm_num) (by simp) (by rfl)
  refine ⟨by simpa using h.1, ?_, ?_⟩
  · have := h.2.2.2.1 0 1 (by norm_num) (by norm_num) (by norm_num)
    simpa using this
  · have := h.2.2.2.2.2 2 (by norm_num)
    exact this

theorem range_map_cons_of_succ {α : Type} (F : ℕ → α) (n : ℕ) :
    (List.range (n + 1)).map F = F 0 :: (List.range n).map (fun i => F (i + 1)) := by
  rw [List.range_succ_eq_map, List.map_cons, List.map_map]
  rfl

theorem trapz_range_map : ∀ (n : ℕ) (F G : ℕ → ℝ),
    trapz ((List.range n).map F) ((List.range n).map G) =
      ∑ i ∈ Finset.range (n - 1), (G (i + 1) - G i) * (F i + F (i + 1)) / 2
  | 0, F, G => by simp [trapz]
  | 1, F, G => by simp [trapz]
  | (n + 2), F, G => by
    have hF := range_map_cons_of_succ F (n + 1)
    have hG := range_map_cons_of_succ G (n + 1)
    have hF2 := range_map_cons_of_succ (fun i => F (i + 1)) n
    have hG2 := range_map_cons_of_succ (fun i => G (i + 1)) n
    simp only at hF2 hG2
    rw [hF, hG, hF2, hG2, trapz, ← hF2, ← hG2,
      trapz_range_map (n + 1) (fun i => F (i + 1)) (fun i => G (i + 1))]
    rw [show n + 2 - 1 = n + 1 from rfl, show n + 1 - 1 = n from rfl,
      Finset.sum_range_succ']
    ring

theorem scale_point (tau u : ℝ) (htau : tau ≠ 0) (q : ℕ) :
    (tau * u) ^ q * Real.exp (-(tau * u) / tau) = tau ^ q * mwaF q u := by
  rw [mwaF, mul_pow, neg_div, mul_div_cancel_left₀ _ htau]
  ring

/-- The trapezoidal sums computed by `parametric_mwa_numerical` factor as
`tau^(q+1)` times the timescale-free sums `trapSum`. -/
theorem trapz_linspace_scaled (tau x : ℝ) (htau : 0 < tau) (q n : ℕ) :
    trapz ((linspace0 (tau * x) n).map (fun s => s ^ q * Real.exp (-s / tau)))
      (linspace0 (tau * x) n) = tau ^ (q + 1) * trapSum q n x := by
  rw [linspace0, List.map_map, trapz_range_map, trapSum, Finset.mul_sum]
  refine Finset.sum_congr rfl fun i _ => ?_
  simp only [Function.comp]
  push_cast
  have e : ∀ j : ℝ, tau * x * j / ((n : ℝ) - 1) = tau * (x * j / ((n : ℝ) - 1)) :=
    fun j => by ring
  rw [e, e, scale_point tau _ (ne_of_gt htau), scale_point tau _ (ne_of_gt htau)]
  simp only [mwaF]
  ring

theorem parametric_mwa_numerical_scaled (tau x : ℝ) (htau : 0 < tau) (p n : ℕ) :
    parametric_mwa_numerical tau (tau * x) p n =
      tau * x - tau ^ (p + 2) * trapSum (p + 1) n x / (tau ^ (p + 1) * trapSum p n x) := by
  simp only [parametric_mwa_numerical]
  rw [trapz_linspace_scaled tau x htau (p + 1) n, trapz_linspace_scaled tau x htau p n]

open MeasureTheory in
/-- Trapezoid-rule error on one interval: for a twice differentiable
integrand with `|f''| ≤ M` on `[a, b]`, the trapezoid estimate deviates
from the integral by at most `M (b-a)^3 / 12` (via the identity
`(b-a)(f a + f b)/2 - ∫ f = (1/2)∫ (t-a)(b-t) f''(t) dt`, obtained by
integrating by parts twice). -/
theorem trap_step (f f' f'' : ℝ → ℝ) (a b M : ℝ) (hab : a ≤ b)
    (hd1 : ∀ t, HasDerivAt f (f' t) t) (hd2 : ∀ t, HasDerivAt f' (f'' t) t)
    (hc1 : Continuous f') (hc2 : Continuous f'')
    (hM : ∀ t ∈ Set.Icc a b, |f'' t| ≤ M) :
    |(b - a) * (f a + f b) / 2 - ∫ t in a..b, f t| ≤ M * (b - a) ^ 3 / 12 := by
  have hdf : Differentiable ℝ f := fun t => (hd1 t).differentiableAt
  have hfc : Continuous f := hdf.continuous
  have hu : ∀ t ∈ Set.uIcc a b, HasDerivAt (fun t => (t - a) * (b - t)) (a + b - 2 * t) t := by
    intro t _
    have h := ((hasDerivAt_id t).sub_const a).mul ((hasDerivAt_const t b).sub (hasDerivAt_id t))
    convert h using 1
    simp only [id_eq]
    ring
  have hv : ∀ t ∈ Set.uIcc a b, HasDerivAt f' (f'' t) t := fun t _ => hd2 t
  have hcu' : Continuous fun t : ℝ => a + b - 2 * t := by continuity
  have hi1 : IntervalIntegrable (fun t : ℝ => a + b - 2 * t) volume a b :=
    hcu'.intervalIntegrable a b
  have hi2 : IntervalIntegrable f'' volume a b := hc2.intervalIntegrable a b
  have ibp1 := intervalIntegral.integral_mul_deriv_eq_deriv_mul hu hv hi1 hi2
  have hu2 : ∀ t ∈ Set.uIcc a b, HasDerivAt (fun t : ℝ => a + b - 2 * t) (-2) t := by
    intro t _
    have h := (hasDerivAt_const t (a + b)).sub ((hasDerivAt_id t).const_mul 2)
    convert h using 1
    ring
  have hv2 : ∀ t ∈ Set.uIcc a b, HasDerivAt f (f' t) t := fun t _ => hd1 t
  have hi3 : IntervalIntegrable (fun _ : ℝ => (-2 : ℝ)) volume a b :=
    continuous_const.intervalIntegrable a b
  have hi4 : IntervalIntegrable f' volume a b := hc1.intervalIntegrable a b
  have ibp2 := intervalIntegral.integral_mul_deriv_eq_deriv_mul hu2 hv2 hi3 hi4
  have hconst : ∫ t in a..b, (-2 : ℝ) * f t = (-2 : ℝ) * ∫ t in a..b, f t :=
    intervalIntegral.integral_const_mul _ _
  have key : ∫ t in a..b, (t - a) * (b - t) * f'' t =
      (b - a) * (f a + f b) - 2 * ∫ t in a..b, f t := by
    rw [ibp1, ibp2, hconst]
    ring
  have hcpol : Continuous fun t : ℝ => (t - a) * (b - t) := by continuity
  have habs : |∫ t in a..b, (t - a) * (b - t) * f'' t| ≤ ∫ t in a..b, (t - a) * (b - t) * M := by
    have h1 : |∫ t in a..b, (t - a) * (b - t) * f'' t| ≤
        ∫ t in a..b, |t - a| * |b - t| * |f'' t| := by
      have := intervalIntegral.norm_integral_le_integral_norm
        (f := fun t => (t - a) * (b - t) * f'' t) (μ := volume) hab
      simpa [Real.norm_eq_abs, abs_mul] using this
    have h2 : ∫ t in a..b, |t - a| * |b - t| * |f'' t| ≤ ∫ t in a..b, (t - a) * (b - t) * M := by
      refine intervalIntegral.integral_mono_on hab ?_ ?_ ?_
      · have : Continuous fun t : ℝ => |t - a| * |b - t| * |f'' t| := by
          exact (((continuous_id.sub continuous_const).abs.mul
            ((continuous_const.sub continuous_id).abs)).mul hc2.abs)
        exact this.intervalIntegrable a b
      · exact (hcpol.mul continuous_const).intervalIntegrable a b
      · intro t ht
        have h3 : 0 ≤ t - a := by linarith [ht.1]
        have h4 : 0 ≤ b - t := by linarith [ht.2]
        rw [abs_of_nonneg h3, abs_of_nonneg h4]
        exact mul_le_mul_of_nonneg_left (hM t ht) (mul_nonneg h3 h4)
    linarith
  have hpoly : ∫ t in a..b, (t - a) * (b - t) * M = M * (b - a) ^ 3 / 6 := by
    have hanti : ∀ t : ℝ, HasDerivAt
        (fun t => M * (-(t ^ 3) / 3 + (a + b) * t ^ 2 / 2 - a * b * t))
        ((t - a) * (b - t) * M) t := by
      intro t
      have h := ((((hasDerivAt_pow 3 t).neg.div_const 3).add
        (((hasDerivAt_pow 2 t).const_mul (a + b)).div_const 2)).sub
        ((hasDerivAt_id t).const_mul (a * b))).const_mul M
      convert h using 1
      push_cast
      ring
    rw [intervalIntegral.integral_eq_sub_of_hasDerivAt (fun t _ => hanti t)
      ((hcpol.mul continuous_const).intervalIntegrable a b)]
    ring
  have final : (b - a) * (f a + f b) / 2 - ∫ t in a..b, f t =
      (∫ t in a..b, (t - a) * (b - t) * f'' t) / 2 := by
    rw [key]
    ring
  rw [final, abs_div]
  rw [show |(2 : ℝ)| = 2 from by norm_num]
  rw [hpoly] at habs
  linarith

open MeasureTheory in
/-- Composite trapezoid error on the uniform `n`-point grid over `[0, x]`:
at most `(n-1) · M · h^3 / 12` with `h = x/(n-1)`, for `|f''| ≤ M` on
`[0, x]`. -/
theorem trapz_grid_error (f f' f'' : ℝ → ℝ) (x M : ℝ) (n : ℕ) (hn : 2 ≤ n) (hx : 0 ≤ x)
    (hd1 : ∀ t, HasDerivAt f (f' t) t) (hd2 : ∀ t, HasDerivAt f' (f'' t) t)
    (hc1 : Continuous f') (hc2 : Continuous f'')
    (hM : ∀ t ∈ Set.Icc 0 x, |f'' t| ≤ M) :
    |(∑ i ∈ Finset.range (n - 1),
        (x / ((n : ℝ) - 1)) * (f (x * i / ((n : ℝ) - 1)) + f (x * (i + 1) / ((n : ℝ) - 1))) / 2) -
      ∫ t in (0 : ℝ)..x, f t| ≤ ((n : ℝ) - 1) * (M * (x / ((n : ℝ) - 1)) ^ 3 / 12) := by
  have hdf : Differentiable ℝ f := fun t => (hd1 t).differentiableAt
  have hfc : Continuous f := hdf.continuous
  have hn' : (2 : ℝ) ≤ (n : ℝ) := by exact_mod_cast hn
  have hdpos : (0 : ℝ) < (n : ℝ) - 1 := by linarith
  have hcast : ((n - 1 : ℕ) : ℝ) = (n : ℝ) - 1 := by
    rw [Nat.cast_sub (by omega)]
    norm_num
  have ha0 : x * ((0 : ℕ) : ℝ) / ((n : ℝ) - 1) = 0 := by norm_num
  have halast : x * ((n - 1 : ℕ) : ℝ) / ((n : ℝ) - 1) = x := by
    rw [hcast, mul_div_assoc, div_self (ne_of_gt hdpos), mul_one]
  have hint : ∀ k, k < n - 1 → IntervalIntegrable f volume
      (x * (k : ℝ) / ((n : ℝ) - 1)) (x * ((k + 1 : ℕ) : ℝ) / ((n : ℝ) - 1)) :=
    fun k _ => hfc.intervalIntegrable _ _
  have hsplit := intervalIntegral.sum_integral_adjacent_intervals
    (μ := volume) (f := f) (a := fun i : ℕ => x * (i : ℝ) / ((n : ℝ) - 1)) hint
  simp only at hsplit
  rw [ha0, halast] at hsplit
  push_cast at hsplit
  have hstep : ∀ i : ℕ, x * ((i : ℝ) + 1) / ((n : ℝ) - 1) - x * (i : ℝ) / ((n : ℝ) - 1) =
      x / ((n : ℝ) - 1) := by
    intro i
    ring
  have hdiff : (∑ i ∈ Finset.range (n - 1),
        (x / ((n : ℝ) - 1)) * (f (x * i / ((n : ℝ) - 1)) + f (x * (i + 1) / ((n : ℝ) - 1))) / 2) -
      ∫ t in (0 : ℝ)..x, f t =
      ∑ i ∈ Finset.range (n - 1),
        ((x / ((n : ℝ) - 1)) * (f (x * i / ((n : ℝ) - 1)) + f (x * (i + 1) / ((n : ℝ) - 1))) / 2 -
          ∫ t in (x * (i : ℝ) / ((n : ℝ) - 1))..(x * ((i : ℝ) + 1) / ((n : ℝ) - 1)), f t) := by
    rw [Finset.sum_sub_distrib, hsplit]
  rw [hdiff]
  refine le_trans (Finset.abs_sum_le_sum_abs _ _) ?_
  have hbound : ∀ i ∈ Finset.range (n - 1),
      |(x / ((n : ℝ) - 1)) * (f (x * i / ((n : ℝ) - 1)) + f (x * (i + 1) / ((n : ℝ) - 1))) / 2 -
          ∫ t in (x * (i : ℝ) / ((n : ℝ) - 1))..(x * ((i : ℝ) + 1) / ((n : ℝ) - 1)), f t| ≤
        M * (x / ((n : ℝ) - 1)) ^ 3 / 12 := by
    intro i hi
    have hi' : (i : ℝ) + 1 ≤ (n : ℝ) - 1 := by
      have h1 : i + 1 ≤ n - 1 := by
        have := Finset.mem_range.mp hi
        omega
      have h2 := (Nat.cast_le (α := ℝ)).mpr h1
      rw [hcast] at h2
      push_cast at h2
      linarith
    have hab : x * (i : ℝ) / ((n : ℝ) - 1) ≤ x * ((i : ℝ) + 1) / ((n : ℝ) - 1) := by
      have := hstep i
      have hstep_nonneg : 0 ≤ x / ((n : ℝ) - 1) := div_nonneg hx (le_of_lt hdpos)
      linarith
    have hsub : Set.Icc (x * (i : ℝ) / ((n : ℝ) - 1)) (x * ((i : ℝ) + 1) / ((n : ℝ) - 1)) ⊆
        Set.Icc 0 x := by
      refine Set.Icc_subset_Icc ?_ ?_
      · positivity
      · rw [div_le_iff hdpos]
        nlinarith [hi']
    have h := trap_step f f' f'' (x * (i : ℝ) / ((n : ℝ) - 1))
      (x * ((i : ℝ) + 1) / ((n : ℝ) - 1)) M hab hd1 hd2 hc1 hc2
      (fun t ht => hM t (hsub ht))
    rw [hstep i] at h
    exact h
  refine le_trans (Finset.sum_le_sum hbound) ?_
  rw [Finset.sum_const, Finset.card_range, nsmul_eq_mul, hcast]
theorem continuous_expNeg : Continuous fun s : ℝ => Real.exp (-s) :=
  Real.continuous_exp.comp continuous_neg

theorem continuous_mwaF (q : ℕ) : Continuous (mwaF q) := by
  unfold mwaF
  exact (continuous_pow q).mul continuous_expNeg

theorem hasDerivAt_mwaF0 (t : ℝ) : HasDerivAt (mwaF 0) (-Real.exp (-t)) t := by
  have e : mwaF 0 = fun s : ℝ => Real.exp (-s) := funext fun s => by simp [mwaF]
  rw [e]
  have h := (hasDerivAt_neg t).exp
  convert h using 1
  ring

theorem hasDerivAt_mwaF1 (t : ℝ) : HasDerivAt (mwaF 1) ((1 - t) * Real.exp (-t)) t := by
  have e : mwaF 1 = fun s : ℝ => s * Real.exp (-s) := funext fun s => by simp [mwaF]
  rw [e]
  have h := (hasDerivAt_id t).mul (hasDerivAt_neg t).exp
  convert h using 1
  simp only [id_eq]
  ring

theorem hasDerivAt_mwaF2 (t : ℝ) : HasDerivAt (mwaF 2) ((2 * t - t ^ 2) * Real.exp (-t)) t := by
  have e : mwaF 2 = fun s : ℝ => s ^ 2 * Real.exp (-s) := funext fun s => by simp [mwaF]
  rw [e]
  have h := (hasDerivAt_pow 2 t).mul (hasDerivAt_neg t).exp
  convert h using 1
  push_cast
  ring

theorem hasDerivAt_dmwaF0 (t : ℝ) :
    HasDerivAt (fun s : ℝ => -Real.exp (-s)) (Real.exp (-t)) t := by
  have h := ((hasDerivAt_neg t).exp).neg
  convert h using 1
  ring

theorem hasDerivAt_dmwaF1 (t : ℝ) :
    HasDerivAt (fun s : ℝ => (1 - s) * Real.exp (-s)) ((t - 2) * Real.exp (-t)) t := by
  have h := ((hasDerivAt_const t (1 : ℝ)).sub (hasDerivAt_id t)).mul (hasDerivAt_neg t).exp
  convert h using 1
  simp only [id_eq]
  ring

theorem hasDerivAt_dmwaF2 (t : ℝ) :
    HasDerivAt (fun s : ℝ => (2 * s - s ^ 2) * Real.exp (-s))
      ((t ^ 2 - 4 * t + 2) * Real.exp (-t)) t := by
  have h := (((hasDerivAt_id t).const_mul 2).sub (hasDerivAt_pow 2 t)).mul
    (hasDerivAt_neg t).exp
  convert h using 1
  simp only [id_eq]
  push_cast
  ring

theorem exp_mul_exp_neg (t : ℝ) : Real.exp t * Real.exp (-t) = 1 := by
  rw [← Real.exp_add]
  simp

theorem ddF0_bound (t : ℝ) (h0 : 0 ≤ t) : |Real.exp (-t)| ≤ 2 := by
  have hE : (0 : ℝ) < Real.exp (-t) := Real.exp_pos _
  have he1 : Real.exp (-t) ≤ 1 := by
    rw [show (1 : ℝ) = Real.exp 0 from (Real.exp_zero).symm]
    exact Real.exp_le_exp.mpr (by linarith)
  rw [abs_of_pos hE]
  linarith

theorem ddF1_bound (t : ℝ) (h0 : 0 ≤ t) : |(t - 2) * Real.exp (-t)| ≤ 2 := by
  have hE : (0 : ℝ) < Real.exp (-t) := Real.exp_pos _
  have hprod := exp_mul_exp_neg t
  have h1 : t + 1 ≤ Real.exp t := Real.add_one_le_exp t
  rw [abs_le]
  constructor
  · have hlin : (0 : ℝ) ≤ (t - 2) + 2 * Real.exp t := by nlinarith
    nlinarith [mul_nonneg (le_of_lt hE) hlin]
  · have hlin : (0 : ℝ) ≤ 2 * Real.exp t - (t - 2) := by nlinarith
    nlinarith [mul_nonneg (le_of_lt hE) hlin]

theorem ddF2_bound (t : ℝ) (h0 : 0 ≤ t) : |(t ^ 2 - 4 * t + 2) * Real.exp (-t)| ≤ 2 := by
  have hE : (0 : ℝ) < Real.exp (-t) := Real.exp_pos _
  have hprod := exp_mul_exp_neg t
  have hq : 1 + t + t ^ 2 / 2 ≤ Real.exp t := Real.quadratic_le_exp_of_nonneg h0
  rw [abs_le]
  constructor
  · have hlin : (0 : ℝ) ≤ (t ^ 2 - 4 * t + 2) + 2 * Real.exp t := by nlinarith
    nlinarith [mul_nonneg (le_of_lt hE) hlin]
  · have hlin : (0 : ℝ) ≤ 2 * Real.exp t - (t ^ 2 - 4 * t + 2) := by nlinarith [sq_nonneg (t - 1)]
    nlinarith [mul_nonneg (le_of_lt hE) hlin]

theorem integral_mwaF0 (x : ℝ) : ∫ t in (0 : ℝ)..x, mwaF 0 t = 1 - Real.exp (-x) := by
  have hanti : ∀ t : ℝ, HasDerivAt (fun s : ℝ => -Real.exp (-s)) (mwaF 0 t) t := by
    intro t
    have := hasDerivAt_dmwaF0 t
    convert this using 1
    simp [mwaF]
  rw [intervalIntegral.integral_eq_sub_of_hasDerivAt (fun t _ => hanti t)
    ((continuous_mwaF 0).intervalIntegrable _ _)]
  simp
  ring

theorem integral_mwaF1 (x : ℝ) :
    ∫ t in (0 : ℝ)..x, mwaF 1 t = 1 - (1 + x) * Real.exp (-x) := by
  have hanti : ∀ t : ℝ, HasDerivAt (fun s : ℝ => -((1 + s) * Real.exp (-s))) (mwaF 1 t) t := by
    intro t
    have h := (((hasDerivAt_const t (1 : ℝ)).add (hasDerivAt_id t)).mul
      (hasDerivAt_neg t).exp).neg
    convert h using 1
    simp only [id_eq, mwaF]
    ring
  rw [intervalIntegral.integral_eq_sub_of_hasDerivAt (fun t _ => hanti t)
    ((continuous_mwaF 1).intervalIntegrable _ _)]
  simp
  ring

theorem integral_mwaF2 (x : ℝ) :
    ∫ t in (0 : ℝ)..x, mwaF 2 t = 2 - (x ^ 2 + 2 * x + 2) * Real.exp (-x) := by
  have hanti : ∀ t : ℝ,
      HasDerivAt (fun s : ℝ => -((s ^ 2 + 2 * s + 2) * Real.exp (-s))) (mwaF 2 t) t := by
    intro t
    have h := ((((hasDerivAt_pow 2 t).add ((hasDerivAt_id t).const_mul 2)).add_const 2).mul
      (hasDerivAt_neg t).exp).neg
    convert h using 1
    simp only [id_eq, mwaF]
    push_cast
    ring
  rw [intervalIntegral.integral_eq_sub_of_hasDerivAt (fun t _ => hanti t)
    ((continuous_mwaF 2).intervalIntegrable _ _)]
  simp
  ring

theorem trapSum_bound_const (x : ℝ) :
    (((1000 : ℕ) : ℝ) - 1) * (2 * (x / (((1000 : ℕ) : ℝ) - 1)) ^ 3 / 12) = x ^ 3 / 5988006 := by
  rw [div_pow]
  norm_num
  ring

theorem trapSum_error0 (x : ℝ) (hx0 : 0 ≤ x) :
    |trapSum 0 1000 x - ∫ t in (0 : ℝ)..x, mwaF 0 t| ≤ x ^ 3 / 5988006 := by
  have h := trapz_grid_error (mwaF 0) (fun t => -Real.exp (-t)) (fun t => Real.exp (-t))
    x 2 1000 (by norm_num) hx0 hasDerivAt_mwaF0 hasDerivAt_dmwaF0
    continuous_expNeg.neg continuous_expNeg (fun t ht => ddF0_bound t ht.1)
  calc |trapSum 0 1000 x - ∫ t in (0 : ℝ)..x, mwaF 0 t|
      ≤ (((1000 : ℕ) : ℝ) - 1) * (2 * (x / (((1000 : ℕ) : ℝ) - 1)) ^ 3 / 12) := h
    _ = x ^ 3 / 5988006 := trapSum_bound_const x

theorem trapSum_error1 (x : ℝ) (hx0 : 0 ≤ x) :
    |trapSum 1 1000 x - ∫ t in (0 : ℝ)..x, mwaF 1 t| ≤ x ^ 3 / 5988006 := by
  have h := trapz_grid_error (mwaF 1) (fun t => (1 - t) * Real.exp (-t))
    (fun t => (t - 2) * Real.exp (-t))
    x 2 1000 (by norm_num) hx0 hasDerivAt_mwaF1 hasDerivAt_dmwaF1
    ((continuous_const.sub continuous_id).mul continuous_expNeg)
    ((continuous_id.sub continuous_const).mul continuous_expNeg)
    (fun t ht => ddF1_bound t ht.1)
  calc |trapSum 1 1000 x - ∫ t in (0 : ℝ)..x, mwaF 1 t|
      ≤ (((1000 : ℕ) : ℝ) - 1) * (2 * (x / (((1000 : ℕ) : ℝ) - 1)) ^ 3 / 12) := h
    _ = x ^ 3 / 5988006 := trapSum_bound_const x

theorem trapSum_error2 (x : ℝ) (hx0 : 0 ≤ x) :
    |trapSum 2 1000 x - ∫ t in (0 : ℝ)..x, mwaF 2 t| ≤ x ^ 3 / 5988006 := by
  have h := trapz_grid_error (mwaF 2) (fun t => (2 * t - t ^ 2) * Real.exp (-t))
    (fun t => (t ^ 2 - 4 * t + 2) * Real.exp (-t))
    x 2 1000 (by norm_num) hx0 hasDerivAt_mwaF2 hasDerivAt_dmwaF2
    (((continuous_const.mul continuous_id).sub (continuous_pow 2)).mul continuous_expNeg)
    ((((continuous_pow 2).sub (continuous_const.mul continuous_id)).add continuous_const).mul continuous_expNeg)
    (fun t ht => ddF2_bound t ht.1)
  calc |trapSum 2 1000 x - ∫ t in (0 : ℝ)..x, mwaF 2 t|
      ≤ (((1000 : ℕ) : ℝ) - 1) * (2 * (x / (((1000 : ℕ) : ℝ) - 1)) ^ 3 / 12) := h
    _ = x ^ 3 / 5988006 := trapSum_bound_const x

theorem exp_half_lt : Real.exp ((1 : ℝ)/2) < 2061/1250 := by
  have hsq : Real.exp ((1 : ℝ)/2) * Real.exp ((1 : ℝ)/2) = Real.exp 1 := by
    rw [← Real.exp_add]
    norm_num
  have h := Real.exp_one_lt_d9
  nlinarith [Real.exp_pos ((1 : ℝ)/2), sq_nonneg (Real.exp ((1 : ℝ)/2) - 2061/1250)]

theorem exp_half_gt : (16487/10000 : ℝ) < Real.exp ((1 : ℝ)/2) := by
  have hsq : Real.exp ((1 : ℝ)/2) * Real.exp ((1 : ℝ)/2) = Real.exp 1 := by
    rw [← Real.exp_add]
    norm_num
  have h := Real.exp_one_gt_d9
  nlinarith [Real.exp_pos ((1 : ℝ)/2), sq_nonneg (Real.exp ((1 : ℝ)/2) + 16487/10000)]

theorem exp_neg_half_lb : (1213/2000 : ℝ) ≤ Real.exp (-((1 : ℝ)/2)) := by
  rw [Real.exp_neg]
  have h1 : (Real.exp ((1 : ℝ)/2))⁻¹ ≥ (2061/1250 : ℝ)⁻¹ := by
    apply inv_le_inv_of_le (Real.exp_pos _) (le_of_lt exp_half_lt)
  have h2 : ((2061/1250 : ℝ))⁻¹ ≥ 1213/2000 := by norm_num
  linarith

theorem exp_neg_half_ub : Real.exp (-((1 : ℝ)/2)) ≤ 3033/5000 := by
  rw [Real.exp_neg]
  have h1 : (Real.exp ((1 : ℝ)/2))⁻¹ ≤ (16487/10000 : ℝ)⁻¹ := by
    apply inv_le_inv_of_le (by norm_num) (le_of_lt exp_half_gt)
  have h2 : ((16487/10000 : ℝ))⁻¹ ≤ 3033/5000 := by norm_num
  linarith

theorem one_add_mul_exp_neg_le (y : ℝ) : (1 + y) * Real.exp (-y) ≤ 1 := by
  have h := Real.add_one_le_exp y
  calc (1 + y) * Real.exp (-y) ≤ Real.exp y * Real.exp (-y) :=
        mul_le_mul_of_nonneg_right (by linarith) (le_of_lt (Real.exp_pos _))
    _ = 1 := exp_mul_exp_neg y

theorem phi1_hasDeriv (x : ℝ) :
    HasDerivAt (fun x : ℝ => x - 2 + (x + 2) * Real.exp (-x))
      (1 - (x + 1) * Real.exp (-x)) x := by
  have h := ((hasDerivAt_id x).sub_const 2).add
    (((hasDerivAt_id x).add_const 2).mul (hasDerivAt_neg x).exp)
  convert h using 1
  simp only [id_eq]
  ring

theorem phi1_mono : Monotone (fun x : ℝ => x - 2 + (x + 2) * Real.exp (-x)) := by
  apply monotone_of_deriv_nonneg
  · exact fun x => (phi1_hasDeriv x).differentiableAt
  · intro x
    rw [(phi1_hasDeriv x).deriv]
    have h := one_add_mul_exp_neg_le x
    nlinarith [h]

theorem phi1_lb (x : ℝ) (hx1 : 1/2 ≤ x) (hx2 : x ≤ 10) :
    3/10000 * x ^ 3 ≤ x - 2 + (x + 2) * Real.exp (-x) := by
  rcases le_or_lt x (37/10) with hc | hc
  · have hm := phi1_mono hx1
    simp only at hm
    have h12 : (1/2 : ℝ) - 2 + (1/2 + 2) * Real.exp (-(1/2)) ≥ 13/800 := by
      have := exp_neg_half_lb
      nlinarith
    have hx3 : x ^ 3 ≤ (37/10) ^ 3 := pow_le_pow_left (by linarith) hc 3
    nlinarith [hm]
  · have hE : 0 ≤ (x + 2) * Real.exp (-x) :=
      mul_nonneg (by linarith) (le_of_lt (Real.exp_pos _))
    nlinarith [hE, mul_nonneg (mul_nonneg (sub_nonneg.mpr hx2)
      (show (0 : ℝ) ≤ 10 + x by linarith)) (show (0 : ℝ) ≤ x by linarith)]

theorem phi0_ge_phi1 (x : ℝ) :
    x - 2 + (x + 2) * Real.exp (-x) ≤ x - 1 + Real.exp (-x) := by
  have h := one_add_mul_exp_neg_le x
  nlinarith [h]

theorem If1_lb (x : ℝ) (hx : 1/2 ≤ x) : 901/10000 ≤ 1 - (1 + x) * Real.exp (-x) := by
  have hsplit : Real.exp (-x) = Real.exp (-((1 : ℝ)/2)) * Real.exp (-(x - 1/2)) := by
    rw [← Real.exp_add]
    ring_nf
  have hy := one_add_mul_exp_neg_le (x - 1/2)
  have hy' : (x + 1/2) * Real.exp (-(x - 1/2)) ≤ 1 := by nlinarith [hy]
  have hEy : (0 : ℝ) < Real.exp (-(x - 1/2)) := Real.exp_pos _
  have hEh : Real.exp (-((1 : ℝ)/2)) ≤ 3033/5000 := exp_neg_half_ub
  have hEh0 : (0 : ℝ) < Real.exp (-((1 : ℝ)/2)) := Real.exp_pos _
  have step1 : (1 + x) * Real.exp (-(x - 1/2)) ≤ 3/2 := by
    nlinarith [mul_le_mul_of_nonneg_right
      (show (1 : ℝ) + x ≤ (3/2) * (x + 1/2) by linarith) (le_of_lt hEy)]
  have hfinal : (1 + x) * Real.exp (-x) ≤ 9099/10000 := by
    calc (1 + x) * Real.exp (-x)
        = Real.exp (-((1 : ℝ)/2)) * ((1 + x) * Real.exp (-(x - 1/2))) := by
          rw [hsplit]; ring
      _ ≤ Real.exp (-((1 : ℝ)/2)) * (3/2) :=
          mul_le_mul_of_nonneg_left step1 (le_of_lt hEh0)
      _ ≤ (3033/5000) * (3/2) := mul_le_mul_of_nonneg_right hEh (by norm_num)
      _ ≤ 9099/10000 := by norm_num
  linarith

theorem If0_lb (x : ℝ) (hx : 1/2 ≤ x) : 3934/10000 ≤ 1 - Real.exp (-x) := by
  have h1 : Real.exp (-x) ≤ Real.exp (-((1 : ℝ)/2)) :=
    Real.exp_le_exp.mpr (by linarith)
  have h2 := exp_neg_half_ub
  linarith

theorem If1_ub (x : ℝ) (hx : 0 ≤ x) : 1 - (1 + x) * Real.exp (-x) ≤ 1 := by
  nlinarith [Real.exp_pos (-x)]

theorem If0_ub (x : ℝ) : 1 - Real.exp (-x) ≤ 1 := by
  nlinarith [Real.exp_pos (-x)]

theorem I1_le_I0 (x : ℝ) (hx : 0 ≤ x) :
    1 - (1 + x) * Real.exp (-x) ≤ 1 - Real.exp (-x) := by
  nlinarith [Real.exp_pos (-x)]

theorem I2_le_2I1 (x : ℝ) :
    2 - (x ^ 2 + 2 * x + 2) * Real.exp (-x) ≤ 2 * (1 - (1 + x) * Real.exp (-x)) := by
  nlinarith [Real.exp_pos (-x), sq_nonneg x, mul_nonneg (sq_nonneg x) (le_of_lt (Real.exp_pos (-x)))]

theorem I1_nonneg (x : ℝ) : 0 ≤ 1 - (1 + x) * Real.exp (-x) := by
  have := one_add_mul_exp_neg_le x
  linarith

theorem I2_nonneg (x : ℝ) (hx : 0 ≤ x) : 0 ≤ 2 - (x ^ 2 + 2 * x + 2) * Real.exp (-x) := by
  have hq := Real.quadratic_le_exp_of_nonneg hx
  have hprod := exp_mul_exp_neg x
  have hlin : (0 : ℝ) ≤ 2 * Real.exp x - (x ^ 2 + 2 * x + 2) := by nlinarith
  nlinarith [mul_nonneg hlin (le_of_lt (Real.exp_pos (-x)))]

/-- Arithmetic core of the mass-weighted-age comparison: if the trapezoid
sums `Sg`, `Sf` are within `E = x^3/5988006` of the exact integrals `Ig`,
`If`, with the established bounds on `If`, `Ig` and on `phi = x·If − Ig`,
then the numerical moment ratio is within 1% of the exact one. -/
theorem ratio_close (Sg Sf Ig If E phi x : ℝ)
    (hE : E = x ^ 3 / 5988006)
    (hx1 : 1/2 ≤ x) (hx2 : x ≤ 10)
    (hSg : |Sg - Ig| ≤ E) (hSf : |Sf - If| ≤ E)
    (hIf_lb : 901/10000 ≤ If) (hIf_ub : If ≤ 1)
    (hIg0 : 0 ≤ Ig) (hIgF : Ig ≤ 2 * If)
    (hphi_def : phi = x * If - Ig)
    (hphi : 3/10000 * x ^ 3 ≤ phi) :
    |Sg / Sf - Ig / If| ≤ 1/100 * (x - Ig / If) ∧ 0 < x - Ig / If ∧ 0 < Sf := by
  have hx0 : (0 : ℝ) < x := by linarith
  have hx3pos : (0 : ℝ) < x ^ 3 := by positivity
  have hE_pos : 0 ≤ E := by rw [hE]; positivity
  have hx3ub : x ^ 3 ≤ 1000 := by
    calc x ^ 3 ≤ 10 ^ 3 := pow_le_pow_left (by linarith) hx2 3
      _ = 1000 := by norm_num
  have hE_ub : E ≤ 168/1000000 := by
    rw [hE]
    rw [div_le_iff (by norm_num : (0:ℝ) < 5988006)]
    nlinarith
  have hSf_lb : If - E ≤ Sf := by
    have := abs_le.mp hSf
    linarith [this.1]
  have hSf_pos : 0 < Sf := by linarith
  have hIf_pos : (0 : ℝ) < If := by linarith
  have hx_sub : x - Ig / If = phi / If := by
    rw [hphi_def]
    field_simp
  have hphi_pos : 0 < phi := lt_of_lt_of_le (by positivity) hphi
  have hpos : 0 < x - Ig / If := by
    rw [hx_sub]
    positivity
  refine ⟨?_, hpos, hSf_pos⟩
  have hdiff : Sg / Sf - Ig / If = (Sg * If - Ig * Sf) / (Sf * If) := by
    field_simp
    ring
  rw [hdiff, abs_div, abs_of_pos (mul_pos hSf_pos hIf_pos),
    div_le_iff (mul_pos hSf_pos hIf_pos)]
  have hnum : |Sg * If - Ig * Sf| ≤ E * (If + Ig) := by
    have h1 : Sg * If - Ig * Sf = (Sg - Ig) * If - Ig * (Sf - If) := by ring
    rw [h1]
    have htri : |(Sg - Ig) * If - Ig * (Sf - If)| ≤ |(Sg - Ig) * If| + |Ig * (Sf - If)| :=
      abs_sub _ _
    have h2 : |(Sg - Ig) * If| = |Sg - Ig| * If := by
      rw [abs_mul, abs_of_pos hIf_pos]
    have h3 : |Ig * (Sf - If)| = Ig * |Sf - If| := by
      rw [abs_mul, abs_of_nonneg hIg0]
    have h4 : |Sg - Ig| * If ≤ E * If := mul_le_mul_of_nonneg_right hSg (le_of_lt hIf_pos)
    have h5 : Ig * |Sf - If| ≤ Ig * E := mul_le_mul_of_nonneg_left hSf hIg0
    calc |(Sg - Ig) * If - Ig * (Sf - If)| ≤ |(Sg - Ig) * If| + |Ig * (Sf - If)| := htri
      _ = |Sg - Ig| * If + Ig * |Sf - If| := by rw [h2, h3]
      _ ≤ E * If + Ig * E := add_le_add h4 h5
      _ = E * (If + Ig) := by ring
  have hrhs : 1/100 * (x - Ig / If) * (Sf * If) = 1/100 * phi * Sf := by
    rw [hx_sub]
    field_simp
    ring
  rw [hrhs]
  have h5 : phi * (If - E) ≤ phi * Sf := mul_le_mul_of_nonneg_left hSf_lb (le_of_lt hphi_pos)
  have h6 : (3/10000 * x ^ 3) * (If - E) ≤ phi * (If - E) :=
    mul_le_mul_of_nonneg_right hphi (by linarith)
  have h7 : E * (If + Ig) ≤ E * (3 * If) := mul_le_mul_of_nonneg_left (by linarith) hE_pos
  have hx3E : x ^ 3 = 5988006 * E := by rw [hE]; ring
  have hkey : E * (3 * If) ≤ 1/100 * ((3/10000 * x ^ 3) * (If - E)) := by
    rw [hx3E]
    nlinarith [mul_le_mul_of_nonneg_left hE_ub hE_pos,
      mul_le_mul_of_nonneg_left hIf_lb hE_pos]
  calc |Sg * If - Ig * Sf| ≤ E * (If + Ig) := hnum
    _ ≤ E * (3 * If) := h7
    _ ≤ 1/100 * ((3/10000 * x ^ 3) * (If - E)) := hkey
    _ ≤ 1/100 * (phi * (If - E)) := by linarith
    _ ≤ 1/100 * (phi * Sf) := by linarith
    _ = 1/100 * phi * Sf := by ring

theorem gammainc_one (x : ℝ) : gammainc 1 x = 1 - Real.exp (-x) := by
  simp [gammainc, Finset.sum_range_succ, Nat.factorial]

theorem gammainc_two (x : ℝ) : gammainc 2 x = 1 - (1 + x) * Real.exp (-x) := by
  simp [gammainc, Finset.sum_range_succ, Nat.factorial]
  ring

theorem gammainc_three_mul_two (x : ℝ) :
    gammainc 3 x * 2 = 2 - (x ^ 2 + 2 * x + 2) * Real.exp (-x) := by
  simp [gammainc, Finset.sum_range_succ, Nat.factorial]
  ring

theorem scipyGamma_two : scipyGamma 2 = 1 := by
  simp [scipyGamma, Nat.factorial]

theorem scipyGamma_three : scipyGamma 3 = 2 := by
  simp [scipyGamma, Nat.factorial]

theorem mwa_assemble (tau x Sg Sf Ig If : ℝ) (htau : 0 < tau)
    (hratio : |Sg / Sf - Ig / If| ≤ 1/100 * (x - Ig / If)) (hpos : 0 < x - Ig / If) :
    |(tau * x - tau * (Sg / Sf)) - (tau * x - tau * (Ig / If))| ≤
      1/100 * |tau * x - tau * (Ig / If)| := by
  have h1 : (tau * x - tau * (Sg / Sf)) - (tau * x - tau * (Ig / If)) =
      tau * ((Ig / If) - (Sg / Sf)) := by ring
  have h2 : tau * x - tau * (Ig / If) = tau * (x - Ig / If) := by ring
  rw [h1, h2, abs_mul, abs_mul, abs_of_pos htau, abs_of_pos hpos, abs_sub_comm]
  nlinarith [mul_le_mul_of_nonneg_left hratio (le_of_lt htau)]

theorem pow_div_collapse (tau Sg Sf : ℝ) (htau : tau ≠ 0) (p : ℕ) :
    tau ^ (p + 2) * Sg / (tau ^ (p + 1) * Sf) = tau * (Sg / Sf) := by
  rcases eq_or_ne Sf 0 with rfl | hSf
  · simp
  · field_simp
    ring

/-- C6: for every timescale `tau > 0` and age with `tage/tau ∈ [1/2, 10]`
and `power ∈ {0, 1}`, the closed-form mass-weighted age `parametric_mwa`
and the 1000-point trapezoidal `parametric_mwa_numerical` agree to within
1% (relative to the closed form). -/
theorem parametric_mwa_close_to_numerical (tau tage : ℝ) (power : ℕ)
    (htau : 0 < tau) (hx1 : 1/2 ≤ tage / tau) (hx2 : tage / tau ≤ 10)
    (hp : power = 0 ∨ power = 1) :
    |parametric_mwa_numerical tau tage power 1000 - parametric_mwa tau tage power| ≤
      1/100 * |parametric_mwa tau tage power| := by
  have htau' : tau ≠ 0 := ne_of_gt htau
  have htage : tage = tau * (tage / tau) := by field_simp
  have hx0 : (0 : ℝ) ≤ tage / tau := by linarith
  rcases hp with rfl | rfl
  · -- power = 0: moment integrands mwaF 1 / mwaF 0
    have hSf := trapSum_error0 (tage / tau) hx0
    have hSg := trapSum_error1 (tage / tau) hx0
    rw [integral_mwaF0] at hSf
    rw [integral_mwaF1] at hSg
    have hcore := ratio_close (trapSum 1 1000 (tage / tau)) (trapSum 0 1000 (tage / tau))
      (1 - (1 + tage / tau) * Real.exp (-(tage / tau))) (1 - Real.exp (-(tage / tau)))
      ((tage / tau) ^ 3 / 5988006)
      ((tage / tau) - 1 + Real.exp (-(tage / tau))) (tage / tau)
      rfl hx1 hx2 hSg hSf
      (by linarith [If0_lb (tage / tau) hx1])
      (If0_ub (tage / tau))
      (I1_nonneg (tage / tau))
      (by linarith [I1_le_I0 (tage / tau) hx0, I1_nonneg (tage / tau),
        If0_lb (tage / tau) hx1])
      (by ring)
      (by
        have h1 := phi1_lb (tage / tau) hx1 hx2
        have h2 := phi0_ge_phi1 (tage / tau)
        linarith)
    have heqn : parametric_mwa_numerical tau tage 0 1000 =
        tau * (tage / tau) -
          tau * (trapSum 1 1000 (tage / tau) / trapSum 0 1000 (tage / tau)) := by
      have h := parametric_mwa_numerical_scaled tau (tage / tau) htau 0 1000
      rw [pow_div_collapse _ _ _ htau'] at h
      norm_num at h
      rw [← htage] at h
      rw [h]
      linarith [htage]
    have heqm : parametric_mwa tau tage 0 =
        tau * (tage / tau) -
          tau * ((1 - (1 + tage / tau) * Real.exp (-(tage / tau))) /
            (1 - Real.exp (-(tage / tau)))) := by
      simp only [parametric_mwa]
      rw [show (0 : ℕ) + 2 = 2 from rfl, show (0 : ℕ) + 1 = 1 from rfl,
        gammainc_two, gammainc_one, scipyGamma_two]
      field_simp
      ring
    rw [heqn, heqm]
    exact mwa_assemble tau (tage / tau) _ _ _ _ htau hcore.1 hcore.2.1
  · -- power = 1: moment integrands mwaF 2 / mwaF 1
    have hSf := trapSum_error1 (tage / tau) hx0
    have hSg := trapSum_error2 (tage / tau) hx0
    rw [integral_mwaF1] at hSf
    rw [integral_mwaF2] at hSg
    have hcore := ratio_close (trapSum 2 1000 (tage / tau)) (trapSum 1 1000 (tage / tau))
      (2 - ((tage / tau) ^ 2 + 2 * (tage / tau) + 2) * Real.exp (-(tage / tau)))
      (1 - (1 + tage / tau) * Real.exp (-(tage / tau)))
      ((tage / tau) ^ 3 / 5988006)
      ((tage / tau) - 2 + ((tage / tau) + 2) * Real.exp (-(tage / tau))) (tage / tau)
      rfl hx1 hx2 hSg hSf
      (If1_lb (tage / tau) hx1)
      (If1_ub (tage / tau) hx0)
      (I2_nonneg (tage / tau) hx0)
      (I2_le_2I1 (tage / tau))
      (by ring)
      (phi1_lb (tage / tau) hx1 hx2)
    have heqn : parametric_mwa_numerical tau tage 1 1000 =
        tau * (tage / tau) -
          tau * (trapSum 2 1000 (tage / tau) / trapSum 1 1000 (tage / tau)) := by
      have h := parametric_mwa_numerical_scaled tau (tage / tau) htau 1 1000
      rw [pow_div_collapse _ _ _ htau'] at h
      norm_num at h
      rw [← htage] at h
      rw [h]
      linarith [htage]
    have heqm : parametric_mwa tau tage 1 =
        tau * (tage / tau) -
          tau * ((2 - ((tage / tau) ^ 2 + 2 * (tage / tau) + 2) * Real.exp (-(tage / tau))) /
            (1 - (1 + tage / tau) * Real.exp (-(tage / tau)))) := by
      simp only [parametric_mwa]
      rw [show (1 : ℕ) + 2 = 3 from rfl, show (1 : ℕ) + 1 = 2 from rfl,
        gammainc_two, scipyGamma_three]
      rw [show gammainc 3 (tage / tau) * 2 /
            (1 - (1 + tage / tau) * Real.exp (-(tage / tau))) * tau =
          (gammainc 3 (tage / tau) * 2) /
            (1 - (1 + tage / tau) * Real.exp (-(tage / tau))) * tau from rfl]
      rw [gammainc_three_mul_two]
      field_simp
      ring
    rw [heqn, heqm]
    exact mwa_assemble tau (tage / tau) _ _ _ _ htau hcore.1 hcore.2.1

/-- Witness for C6 at `tau = 1`, `tage = 1`, `power = 1`. -/
theorem parametric_mwa_close_to_numerical_witness :
    |parametric_mwa_numerical 1 1 1 1000 - parametric_mwa 1 1 1| ≤
      1/100 * |parametric_mwa 1 1 1| :=
  parametric_mwa_close_to_numerical 1 1 1 (by norm_num) (by norm_num) (by norm_num)
    (Or.inr rfl)
